import Mathlib

/-
Verification of the crawler core of the Sleeping-barber-problem repository
(src/models.py, src/app_controller.py, src/utils.py).

The Python functions are shallowly embedded as executable Lean definitions:
  - strings are `List Char` / `String`; Python's `str.lower` is modelled by the
    ASCII case map `lowc` (CPython lowercases the full Unicode range, the URLs
    and keywords treated here are ASCII);
  - `urllib.parse.urlparse/urlunparse`, which `normalize_url` delegates to, are
    embedded following CPython's `Lib/urllib/parse.py` (scheme detection,
    netloc/fragment/query splitting, params splitting, hostname/port
    extraction with the bracketed-host branch and the unbalanced-bracket
    ValueError), CPython 3.11 semantics.  A raised ValueError (invalid port,
    unbalanced brackets) is modelled as `none`.  Two raise-paths that only
    concern non-ASCII or bracketed input are not modelled:
    `_check_bracketed_host` (which validates that a bracketed host is an
    IP literal) and `_checknetloc` (which rejects certain non-ASCII
    netlocs);
  - the HTTP transport behind `PageFetcher.fetch` is an oracle
    `Nat → FetchResp` giving the outcome of each successive
    `session.get` call, and the unbounded `while` loop is run on explicit
    fuel: `none` means the loop has not finished within the given fuel;
  - the thread structure of Crawler/URLProducer/AppController is a small
    transition system `SysStep` whose atomic steps are exactly the lock-guarded
    critical sections of the Python code.
-/

/-- ASCII lower-casing of one character, the ASCII fragment of Python's
`str.lower`. -/
def lowc (c : Char) : Char :=
  if h : 65 ≤ c.toNat ∧ c.toNat ≤ 90 then Char.ofNatAux (c.toNat + 32) (Or.inl (by omega)) else c

/-- Lower-case a character list. -/
def lowStr (l : List Char) : List Char := l.map lowc

/-- Boolean test `x ≠ c`, the loop guards of the parsing splits. -/
def neChar (c : Char) : Char → Bool := fun x => x != c

/-- ASCII alphabetic character: Python's `ch.isascii() and ch.isalpha()`. -/
def asciiAlpha (c : Char) : Bool :=
  decide (65 ≤ c.toNat ∧ c.toNat ≤ 90) || decide (97 ≤ c.toNat ∧ c.toNat ≤ 122)

/-- ASCII digit. -/
def asciiDigit (c : Char) : Bool := decide (48 ≤ c.toNat ∧ c.toNat ≤ 57)

/-- Membership in CPython's `scheme_chars` (letters, digits, `+`, `-`, `.`). -/
def isSchemeChar (c : Char) : Bool :=
  asciiAlpha c || asciiDigit c || c == '+' || c == '-' || c == '.'

/-- CPython `urlsplit` scheme detection: `i = url.find(':')`;
if `i > 0 and url[0].isascii() and url[0].isalpha()` and every character of
`url[:i]` is in `scheme_chars`, the scheme is `url[:i].lower()` and the rest is
`url[i+1:]`; otherwise the url is left whole with an empty scheme. -/
def splitScheme (url : List Char) : List Char × List Char :=
  let before := url.takeWhile (neChar ':')
  match url.dropWhile (neChar ':') with
  | [] => ([], url)
  | _ :: after =>
    if 0 < before.length ∧ asciiAlpha (url.headD ':') = true ∧ before.all isSchemeChar = true
    then (lowStr before, after)
    else ([], url)

/-- Not one of the netloc delimiters `/`, `?`, `#`. -/
def notDelim (c : Char) : Bool := !(c == '/' || c == '?' || c == '#')

/-- CPython `_splitnetloc`: when the url starts with `//`, the netloc is
everything up to the next `/`, `?` or `#`; the remainder keeps the delimiter. -/
def splitNetloc : List Char → List Char × List Char
  | '/' :: '/' :: rest => (rest.takeWhile notDelim, rest.dropWhile notDelim)
  | url => ([], url)

/-- Split at the first occurrence of `c`: Python `s.split(c, 1)` with a missing
separator giving an empty second part. -/
def cutAt (c : Char) (l : List Char) : List Char × List Char :=
  (l.takeWhile (neChar c), (l.dropWhile (neChar c)).drop 1)

/-- CPython `urlsplit` preprocessing: `url.lstrip(_WHATWG_C0_CONTROL_OR_SPACE)`
strips the leading run of characters with code point at most 0x20. -/
def stripC0 (l : List Char) : List Char := l.dropWhile (fun c => c.toNat ≤ 32)

/-- CPython `urlsplit` preprocessing: every `_UNSAFE_URL_BYTES_TO_REMOVE`
(tab, carriage return, newline) is removed from the url. -/
def removeUnsafe (l : List Char) : List Char :=
  l.filter (fun c => !(c == '\t' || c == '\r' || c == '\n'))

/-- The five raw components of CPython `urlsplit`: scheme, netloc, path
(before params splitting), query, fragment.  `none` models the
`ValueError("Invalid IPv6 URL")` raised on unbalanced brackets. -/
structure SplitRec where
  scheme : List Char
  netloc : List Char
  path : List Char
  query : List Char
  frag : List Char
deriving DecidableEq

/-- CPython `urlsplit`: preprocess, detect the scheme, split off `//netloc`,
reject unbalanced brackets, then split the fragment at the first `#` and the
query at the first `?` of what remains. -/
def urlsplitModel (url0 : List Char) : Option SplitRec :=
  let url := removeUnsafe (stripC0 url0)
  let s := splitScheme url
  let n := splitNetloc s.2
  if ('[' ∈ n.1 ∧ ']' ∉ n.1) ∨ (']' ∈ n.1 ∧ '[' ∉ n.1) then none
  else
    let f := cutAt '#' n.2
    let q := cutAt '?' f.1
    some ⟨s.1, n.1, q.1, q.2, f.2⟩

/-- CPython `urlparse`'s `_splitparams` applied to the path: if the path
contains `;`, drop everything from the first `;` of the last `/`-separated
segment on (`i = url.find(';', url.rfind('/'))`); a path without `/` is cut at
its first `;`. -/
def splitParamsPath (p : List Char) : List Char :=
  if ';' ∈ p then
    if '/' ∈ p then
      let segRev := p.reverse.takeWhile (neChar '/')
      (p.reverse.drop segRev.length).reverse ++ segRev.reverse.takeWhile (neChar ';')
    else p.takeWhile (neChar ';')
  else p

/-- CPython `_hostinfo`: take what follows the last `@` of the netloc; inside
`[...]` brackets the host is the bracketed part and the port follows the `:`
after `]`; otherwise partition at the first `:`. Returns (raw host, raw port
string). -/
def hostSplit (netloc : List Char) : List Char × List Char :=
  let hostinfo := (netloc.reverse.takeWhile (neChar '@')).reverse
  if '[' ∈ hostinfo then
    let bracketed := (hostinfo.dropWhile (neChar '[')).drop 1
    (bracketed.takeWhile (neChar ']'),
      (((bracketed.dropWhile (neChar ']')).drop 1).dropWhile (neChar ':')).drop 1)
  else
    (hostinfo.takeWhile (neChar ':'), (hostinfo.dropWhile (neChar ':')).drop 1)

/-- Decimal value of a digit string, Python `int(s, 10)` on digit strings. -/
def digitsVal (l : List Char) : Nat := l.foldl (fun a c => a * 10 + (c.toNat - 48)) 0

/-- Decimal rendering of a natural number (fuel-driven recursion on `n/10`). -/
def digitsOfNatAux : Nat → Nat → List Char
  | 0, _ => []
  | fuel + 1, n =>
    if n < 10 then [Char.ofNat (n + 48)]
    else digitsOfNatAux fuel (n / 10) ++ [Char.ofNat (n % 10 + 48)]

/-- Decimal rendering of a natural number, Python `str(n)` / f-string. -/
def digitsOfNat (n : Nat) : List Char := digitsOfNatAux (n + 1) n

/-- CPython `SplitResult.port`: an empty port string is `None`; a string that
is `isdigit() and isascii()` is parsed by `int` and must lie in `0..65535`;
anything else raises ValueError (modelled as the outer `none`). -/
def portOf (portStr : List Char) : Option (Option Nat) :=
  if portStr = [] then some none
  else if portStr.all asciiDigit then
    if digitsVal portStr ≤ 65535 then some (some (digitsVal portStr)) else none
  else none

/-- Python `path.rstrip('/')`. -/
def rstripSlash (p : List Char) : List Char := (p.reverse.dropWhile (fun c => c == '/')).reverse

/-- CPython's `uses_netloc` scheme list. -/
def usesNetloc : List (List Char) :=
  ["", "ftp", "http", "gopher", "nntp", "telnet", "imap", "wais", "file", "mms",
   "https", "shttp", "snews", "prospero", "rtsp", "rtsps", "rtspu", "rsync",
   "svn", "svn+ssh", "sftp", "nfs", "git", "git+ssh", "ws", "wss"].map String.data

/-- CPython 3.11 `urlunsplit` with empty query/fragment: re-attach `//` when
there is a netloc, or when the scheme is a `uses_netloc` scheme and the path
does not already start with `//`; in that case force a `/` in front of a
relative path; then prepend `scheme:`. -/
def unsplitModel (scheme netloc path : List Char) : List Char :=
  let url :=
    if netloc ≠ [] ∨ (scheme ≠ [] ∧ scheme ∈ usesNetloc ∧ path.take 2 ≠ ['/', '/']) then
      '/' :: '/' :: (netloc ++ (if path ≠ [] ∧ path.take 1 ≠ ['/'] then '/' :: path else path))
    else path
  if scheme ≠ [] then scheme ++ ':' :: url else url

/-- The body of `normalize_url` (src/models.py) after `urlparse`: lower-case
the scheme, extract hostname and port (the `parsed.port` access can raise),
drop default and falsy ports, keep explicit other ports, lower-case hostname,
strip params (done by `urlparse` itself), strip trailing slashes and lower-case
the path, and reassemble with empty params/query/fragment. -/
def normSplit (r : SplitRec) : Option (List Char) :=
  let scheme := lowStr r.scheme
  let hp := hostSplit r.netloc
  match portOf hp.2 with
  | none => none
  | some port =>
    let hostname := lowStr hp.1
    let netloc :=
      if (scheme = "http".data ∧ port = some 80) ∨ (scheme = "https".data ∧ port = some 443) then
        hostname
      else
        match port with
        | some p => if p ≠ 0 then hostname ++ ':' :: digitsOfNat p else hostname
        | none => hostname
    let path := lowStr (rstripSlash (splitParamsPath r.path))
    some (unsplitModel scheme netloc path)

/-- `normalize_url` (src/models.py, lines 14-41) on character lists. -/
def normalizeList (url : List Char) : Option (List Char) :=
  (urlsplitModel url).bind normSplit

/-- `normalize_url` (src/models.py): `none` models a raised ValueError. -/
def normalize_url (u : String) : Option String := (normalizeList u.data).map List.asString

/-- Outcome of one `self.session.get(url, timeout=5)` call inside
`PageFetcher.fetch` (src/models.py): a 200 response with its body, a 429
response, any other status code, or a raised
`requests.exceptions.RequestException`. -/
inductive FetchResp where
  | ok (body : String)
  | tooMany
  | status (code : Nat)
  | connError
deriving DecidableEq

/-- The `while attempt < self.max_retries` loop of `PageFetcher.fetch`
(src/models.py, lines 128-158), run on explicit fuel.  Arguments: the response
oracle (outcome of the i-th transport call), `max_retries`, fuel, the index of
the next transport call, `attempt`, `backoff`.  `none` means the loop has not
finished within the fuel; `some r` is the returned value (`r = none` is
Python's `None`). -/
def fetchFuel (resp : Nat → FetchResp) (maxRetries : Nat) :
    Nat → Nat → Nat → Nat → Option (Option String)
  | 0, _, _, _ => none
  | fuel + 1, i, attempt, backoff =>
    if attempt < maxRetries then
      match resp i with
      | .ok body => some (some body)
      | .tooMany => fetchFuel resp maxRetries fuel (i + 1) attempt (backoff * 2)
      | .status _ => some none
      | .connError => fetchFuel resp maxRetries fuel (i + 1) (attempt + 1) (backoff * 2)
    else some none

/-- `PageFetcher.fetch` from its entry point: `attempt = 0`, `backoff = 1`. -/
def fetchModel (resp : Nat → FetchResp) (maxRetries fuel : Nat) : Option (Option String) :=
  fetchFuel resp maxRetries fuel 0 0 1

/-- Python `str.lower` (ASCII fragment) on `String`. -/
def pyLower (s : String) : String := (lowStr s.data).asString

/-- Python `text.count(sub)` scan for a non-empty `sub`: at each position
either match `sub` and skip past it, or advance one character.  The fuel is
the length of the haystack, which bounds the number of steps. -/
def pyCountAux : Nat → List Char → List Char → Nat
  | 0, _, _ => 0
  | fuel + 1, hay, needle =>
    match hay with
    | [] => 0
    | h :: t =>
      if needle.isPrefixOf (h :: t) then 1 + pyCountAux fuel ((h :: t).drop needle.length) needle
      else pyCountAux fuel t needle

/-- Python `text.count(sub)`: an empty `sub` occurs `len(text) + 1` times. -/
def pyCount (hay needle : List Char) : Nat :=
  if needle = [] then hay.length + 1 else pyCountAux hay.length hay needle

/-- One binding step of a Python dict comprehension: an existing key keeps its
position and gets the new value, a fresh key is appended. -/
def dictInsert (d : List (String × Nat)) (k : String) (v : Nat) : List (String × Nat) :=
  if d.any (fun p => p.1 == k) then d.map (fun p => if p.1 = k then (k, v) else p)
  else d ++ [(k, v)]

/-- `count_keywords` (src/utils.py, lines 68-83): empty keyword list gives an
empty dict; otherwise lower the content once and build
`{kw.lower(): text.count(kw.lower()) for kw in keywords}`. -/
def count_keywords (html : String) (keywords : List String) : List (String × Nat) :=
  if keywords = [] then []
  else
    keywords.foldl
      (fun d kw => dictInsert d (pyLower kw) (pyCount (pyLower html).data (pyLower kw).data)) []

/-- `AppController.store_links` (src/app_controller.py, lines 160-170): under
the lock, append each link that is in neither the visited set nor the current
stored list. -/
def store_links (visited : Finset String) (pool : List String) (links : List String) :
    List String :=
  links.foldl (fun acc link => if link ∉ visited ∧ link ∉ acc then acc ++ [link] else acc) pool

/-- Shared state of AppController together with the liveness of the two
threads.  `queue` is the FIFO `URLQueue` (`none` is the shutdown `None`
value), `history` is a ghost list recording every real URL ever enqueued. -/
structure SysState where
  queue : List (Option String)
  visited : Finset String
  pool : List String
  customers : List String
  history : List String
  running : Bool
  crawlerAlive : Bool
  producerAlive : Bool
deriving DecidableEq

/-- The critical section of `URLProducer.run` (src/models.py, lines 323-341)
after a pool entry `link` has been drawn: `stored_links.remove(link)` (first
occurrence), normalize, and only if the result is truthy, unvisited, and the
queue is below `max_queue_size`, enqueue it and mark it visited; in every
other branch the drawn entry is simply gone.  A ValueError escaping
`normalize_url` would kill the producer thread. -/
def promoteOne (maxQ : Nat) (s : SysState) (link : String) : SysState :=
  let pool1 := s.pool.erase link
  match normalize_url link with
  | none => { s with pool := pool1, producerAlive := false }
  | some n =>
    if n ≠ "" ∧ n ∉ s.visited then
      if s.queue.length < maxQ then
        { s with pool := pool1, queue := s.queue ++ [some n],
                 visited := insert n s.visited, history := s.history ++ [n] }
      else { s with pool := pool1 }
    else { s with pool := pool1 }

/-- `AppController.stop` (src/app_controller.py, lines 104-123): a no-op when
not running; otherwise clear the flag, push the shutdown `None` and join both
threads (joining is modelled by the threads being dead when `stop` returns). -/
def stopModel (s : SysState) : SysState :=
  if s.running = false then s
  else { s with running := false, queue := s.queue ++ [none],
                crawlerAlive := false, producerAlive := false }

/-- Atomic steps of the crawler system: seeding from `AppController.start`
(lines 78-84), the producer critical section, and the worker's pool/result
publications and queue operations from `Crawler.run`, plus thread exits and
`stop` calls. -/
inductive SysStep (maxQ : Nat) : SysState → SysState → Prop where
  | seed (u n : String) (s : SysState) :
      s.running = true → normalize_url u = some n → n ∉ s.visited →
      SysStep maxQ s { s with queue := s.queue ++ [some n],
                              visited := insert n s.visited, history := s.history ++ [n] }
  | seedDup (u n : String) (s : SysState) :
      s.running = true → normalize_url u = some n → n ∈ s.visited → SysStep maxQ s s
  | promote (link : String) (s : SysState) :
      s.producerAlive = true → link ∈ s.pool → SysStep maxQ s (promoteOne maxQ s link)
  | storeFound (links : List String) (s : SysState) :
      s.crawlerAlive = true →
      SysStep maxQ s { s with pool := store_links s.visited s.pool links }
  | addCustomer (u : String) (s : SysState) :
      s.crawlerAlive = true → SysStep maxQ s { s with customers := s.customers ++ [u] }
  | dequeue (s : SysState) (x : Option String) (rest : List (Option String)) :
      s.crawlerAlive = true → s.queue = x :: rest → SysStep maxQ s { s with queue := rest }
  | crawlerDone (s : SysState) :
      s.crawlerAlive = true →
      SysStep maxQ s { s with crawlerAlive := false, running := false }
  | crawlerIdleExit (s : SysState) :
      s.crawlerAlive = true → s.running = false →
      SysStep maxQ s { s with crawlerAlive := false }
  | producerExit (s : SysState) :
      s.producerAlive = true → s.running = false →
      SysStep maxQ s { s with producerAlive := false }
  | stopCall (s : SysState) : SysStep maxQ s (stopModel s)

/-- State right after `AppController.start` sets the run flag and before any
seeding: empty queue, visited set, pool and results, both threads viewed as
started. -/
def initState : SysState := ⟨[], ∅, [], [], [], true, true, true⟩

/-- Reachability in the crawler system. -/
def SysReach (maxQ : Nat) : SysState → SysState → Prop :=
  Relation.ReflTransGen (SysStep maxQ)

/-- The `:port` suffix of a netloc with an explicit port. -/
def portPart : Option Nat → List Char
  | some p => ':' :: digitsOfNat p
  | none => []

/-- An optional URL component introduced by its delimiter (`?query`, `#frag`). -/
def optPart (c : Char) : Option (List Char) → List Char
  | some l => c :: l
  | none => []

/-- A URL string assembled from components: `scheme://host[:port]path[?query][#frag]`.
Used to state the normalization-equivalence claims over concrete URL shapes. -/
def mkUrl (scheme host : List Char) (port : Option Nat) (path : List Char)
    (query frag : Option (List Char)) : List Char :=
  scheme ++ ':' :: '/' :: '/' ::
    (host ++ portPart port ++ path ++ optPart '?' query ++ optPart '#' frag)

/-- A scheme component that CPython's scheme detection accepts. -/
def SchemeOk (s : List Char) : Prop :=
  s ≠ [] ∧ asciiAlpha (s.headD ':') = true ∧ s.all isSchemeChar = true

/-- A host component free of netloc delimiters, userinfo and bracket
characters, port separators, and of the characters removed by `urlsplit`
preprocessing. -/
def HostOk (h : List Char) : Prop :=
  ∀ c ∈ h, c ≠ '/' ∧ c ≠ '?' ∧ c ≠ '#' ∧ c ≠ ':' ∧ c ≠ '@' ∧ c ≠ '[' ∧ c ≠ ']' ∧ 32 < c.toNat

/-- A path component that is absolute (or empty), free of query/fragment
delimiters, free of `;` (no params), and free of the characters removed by
`urlsplit` preprocessing. -/
def PathOk (p : List Char) : Prop :=
  (p = [] ∨ p.headD ' ' = '/') ∧ ∀ c ∈ p, c ≠ '?' ∧ c ≠ '#' ∧ c ≠ ';' ∧ 32 < c.toNat

/-- A query component free of `#` and of removed characters. -/
def QueryOk (q : Option (List Char)) : Prop :=
  ∀ l, q = some l → ∀ c ∈ l, c ≠ '#' ∧ 32 < c.toNat

/-- A fragment component free of removed characters. -/
def FragOk (f : Option (List Char)) : Prop :=
  ∀ l, f = some l → ∀ c ∈ l, 32 < c.toNat

theorem toNat_inj {c d : Char} (h : c.toNat = d.toNat) : c = d := by
  rw [← Char.ofNat_toNat c, ← Char.ofNat_toNat d, h]

theorem lowc_eq_self {c : Char} (h : ¬(65 ≤ c.toNat ∧ c.toNat ≤ 90)) : lowc c = c := by
  simp only [lowc, dif_neg h]

theorem lowc_toNat {c : Char} (h : 65 ≤ c.toNat ∧ c.toNat ≤ 90) :
    (lowc c).toNat = c.toNat + 32 := by
  simp only [lowc, dif_pos h]; rfl

theorem lowc_lowc (c : Char) : lowc (lowc c) = lowc c := by
  by_cases h : 65 ≤ c.toNat ∧ c.toNat ≤ 90
  · have h2 := lowc_toNat h
    exact lowc_eq_self (by omega)
  · simp only [lowc_eq_self h]

theorem lowc_eq_iff {c d : Char} (hd1 : ¬(65 ≤ d.toNat ∧ d.toNat ≤ 90))
    (hd2 : ¬(97 ≤ d.toNat ∧ d.toNat ≤ 122)) : lowc c = d ↔ c = d := by
  constructor
  · intro h
    by_cases hc : 65 ≤ c.toNat ∧ c.toNat ≤ 90
    · have := lowc_toNat hc
      rw [h] at this
      omega
    · rwa [lowc_eq_self hc] at h
  · intro h
    subst h
    exact lowc_eq_self hd1

theorem lowc_toNat_le (c : Char) (h : 32 < c.toNat) : 32 < (lowc c).toNat := by
  by_cases hc : 65 ≤ c.toNat ∧ c.toNat ≤ 90
  · have := lowc_toNat hc; omega
  · rwa [lowc_eq_self hc]

theorem neChar_true {c x : Char} : neChar c x = true ↔ x ≠ c := by
  simp [neChar]

theorem neChar_false {c x : Char} : neChar c x = false ↔ x = c := by
  simp [neChar]

theorem takeWhile_app_all {p : Char → Bool} {l : List Char} (r : List Char)
    (h : ∀ x ∈ l, p x = true) : (l ++ r).takeWhile p = l ++ r.takeWhile p := by
  induction l with
  | nil => simp
  | cons a t ih =>
    rw [List.cons_append, List.takeWhile_cons_of_pos (h a (by simp)), List.cons_append,
      ih fun x hx => h x (by simp [hx])]

theorem dropWhile_app_all {p : Char → Bool} {l : List Char} (r : List Char)
    (h : ∀ x ∈ l, p x = true) : (l ++ r).dropWhile p = r.dropWhile p := by
  induction l with
  | nil => simp
  | cons a t ih =>
    rw [List.cons_append, List.dropWhile_cons_of_pos (h a (by simp)),
      ih fun x hx => h x (by simp [hx])]

theorem takeWhile_all {p : Char → Bool} {l : List Char} (h : ∀ x ∈ l, p x = true) :
    l.takeWhile p = l := by
  have := takeWhile_app_all (p := p) (l := l) [] h
  simpa using this

theorem dropWhile_all {p : Char → Bool} {l : List Char} (h : ∀ x ∈ l, p x = true) :
    l.dropWhile p = [] := by
  have := dropWhile_app_all (p := p) (l := l) [] h
  simpa using this

/-- If every 429 response lies below position `N`, the fetch loop finishes
within `(N - i) + (maxRetries - attempt)` further transport calls. -/
theorem fetch_terminates (resp : Nat → FetchResp) (mr N : Nat)
    (h429 : ∀ j, N ≤ j → resp j ≠ FetchResp.tooMany) :
    ∀ fuel i a b, (N - i) + (mr - a) < fuel → ∃ r, fetchFuel resp mr fuel i a b = some r := by
  intro fuel
  induction fuel with
  | zero => intro i a b h; omega
  | succ f ih =>
    intro i a b h
    by_cases ha : a < mr
    · rcases hr : resp i with body | _ | c | _
      · exact ⟨some body, by simp [fetchFuel, ha, hr]⟩
      · have hi : i < N := by
          by_contra hge
          exact h429 i (by omega) hr
        have ⟨r, hrec⟩ := ih (i + 1) a (b * 2) (by omega)
        exact ⟨r, by simp [fetchFuel, ha, hr, hrec]⟩
      · exact ⟨none, by simp [fetchFuel, ha, hr]⟩
      · have ⟨r, hrec⟩ := ih (i + 1) (a + 1) (b * 2) (by omega)
        exact ⟨r, by simp [fetchFuel, ha, hr, hrec]⟩
    · exact ⟨none, by simp [fetchFuel, ha]⟩

/-- Under a constant stream of 429 responses the fetch loop never finishes,
whatever the fuel. -/
theorem fetch_429_forever (mr : Nat) :
    ∀ fuel i a b, a < mr → fetchFuel (fun _ => FetchResp.tooMany) mr fuel i a b = none := by
  intro fuel
  induction fuel with
  | zero => intro i a b _; rfl
  | succ f ih => intro i a b ha; simp [fetchFuel, ha, ih (i + 1) a (b * 2) ha]

/-- Claim C1, counterexample: under a sustained stream of rate-limited (429)
responses, `PageFetcher.fetch` never terminates — no amount of fuel makes the
retry loop return, because the 429 branch does not increment the attempt
counter. -/
theorem claim_C1_counterexample :
    ¬ ∃ fuel r, fetchModel (fun _ => FetchResp.tooMany) 3 fuel = some r := by
  rintro ⟨fuel, r, h⟩
  rw [fetchModel, fetch_429_forever 3 fuel 0 0 1 (by omega)] at h
  exact Option.noConfusion h

/-- Claim C1 (amended): `PageFetcher.fetch` increments the attempt counter on
a transport error but not on a 429 response, doubles the backoff on both, and
terminates — within `N + max_retries + 1` transport calls — provided no 429
response occurs at or after position `N` of the response stream; under
sustained 429 responses it need not terminate. -/
theorem claim_C1 (resp : Nat → FetchResp) (maxRetries N : Nat)
    (h429 : ∀ j, N ≤ j → resp j ≠ FetchResp.tooMany) :
    (∃ r, fetchModel resp maxRetries (N + maxRetries + 1) = some r) ∧
    (∀ i a b f, a < maxRetries → resp i = FetchResp.tooMany →
      fetchFuel resp maxRetries (f + 1) i a b = fetchFuel resp maxRetries f (i + 1) a (b * 2)) ∧
    (∀ i a b f, a < maxRetries → resp i = FetchResp.connError →
      fetchFuel resp maxRetries (f + 1) i a b =
        fetchFuel resp maxRetries f (i + 1) (a + 1) (b * 2)) := by
  refine ⟨?_, ?_, ?_⟩
  · exact fetch_terminates resp maxRetries N h429 (N + maxRetries + 1) 0 0 1 (by omega)
  · intro i a b f ha hi; simp [fetchFuel, ha, hi]
  · intro i a b f ha hi; simp [fetchFuel, ha, hi]

/-- Witness for C1 at a concrete response stream (all transport errors). -/
theorem claim_C1_witness :
    ∃ r, fetchModel (fun _ => FetchResp.connError) 3 (0 + 3 + 1) = some r :=
  (claim_C1 (fun _ => FetchResp.connError) 3 0 (fun _ _ h => FetchResp.noConfusion h)).1

/-- Claim C4: `PageFetcher.fetch` converts every failure mode to a `None`
return: (i) a status other than 200/429 returns `None` in that very step, with
no further retry; (ii) when every transport call raises, the loop returns
`None` once the attempt counter is exhausted; (iii) whenever the call returns
page content, that content is the body of a 200 response actually received. -/
theorem claim_C4 (resp : Nat → FetchResp) (mr : Nat) :
    (∀ i a b f c, a < mr → resp i = FetchResp.status c →
      fetchFuel resp mr (f + 1) i a b = some none) ∧
    ((∀ j, resp j = FetchResp.connError) →
      ∀ f i a b, mr - a < f → fetchFuel resp mr f i a b = some none) ∧
    (∀ f i a b body, fetchFuel resp mr f i a b = some (some body) →
      ∃ j, i ≤ j ∧ resp j = FetchResp.ok body) := by
  refine ⟨?_, ?_, ?_⟩
  · intro i a b f c ha hi; simp [fetchFuel, ha, hi]
  · intro hconn f
    induction f with
    | zero => intro i a b h; omega
    | succ g ih =>
      intro i a b h
      by_cases ha : a < mr
      · rw [show fetchFuel resp mr (g + 1) i a b =
            fetchFuel resp mr g (i + 1) (a + 1) (b * 2) by simp [fetchFuel, ha, hconn i]]
        exact ih (i + 1) (a + 1) (b * 2) (by omega)
      · simp [fetchFuel, ha]
  · intro f
    induction f with
    | zero => intro i a b body h; exact Option.noConfusion h
    | succ g ih =>
      intro i a b body h
      by_cases ha : a < mr
      · rcases hr : resp i with body' | _ | c | _ <;> rw [fetchFuel, if_pos ha, hr] at h
        · simp only [Option.some.injEq] at h
          exact ⟨i, le_refl i, by rw [hr, h]⟩
        · obtain ⟨j, hj, hok⟩ := ih (i + 1) a (b * 2) body h
          exact ⟨j, by omega, hok⟩
        · exact Option.noConfusion (Option.some.inj h)
        · obtain ⟨j, hj, hok⟩ := ih (i + 1) (a + 1) (b * 2) body h
          exact ⟨j, by omega, hok⟩
      · rw [fetchFuel, if_neg ha] at h
        exact Option.noConfusion (Option.some.inj h)

/-- Witness for C4: a concrete 404 response makes fetch return `None` at once. -/
theorem claim_C4_witness :
    fetchFuel (fun _ => FetchResp.status 404) 3 (5 + 1) 0 0 1 = some none :=
  (claim_C4 (fun _ => FetchResp.status 404) 3).1 0 0 1 5 404 (by omega) rfl

theorem dictInsert_fst (d : List (String × Nat)) (k : String) (v : Nat) :
    (dictInsert d k v).map Prod.fst =
      if k ∈ d.map Prod.fst then d.map Prod.fst else d.map Prod.fst ++ [k] := by
  by_cases h : k ∈ d.map Prod.fst
  · have hany : d.any (fun p => p.1 == k) = true := by
      simp only [List.any_eq_true, beq_iff_eq]
      obtain ⟨p, hp, he⟩ := List.mem_map.mp h
      exact ⟨p, hp, he⟩
    rw [dictInsert, if_pos hany, if_pos h, List.map_map]
    apply List.map_congr_left
    intro p _
    by_cases hpk : p.1 = k <;> simp [hpk]
  · have hany : d.any (fun p => p.1 == k) = false := by
      simp only [List.any_eq_false, beq_iff_eq]
      intro p hp he
      exact h (List.mem_map.mpr ⟨p, hp, he⟩)
    rw [dictInsert, if_neg (by simp [hany]), if_neg h]
    simp

theorem dictInsert_length (d : List (String × Nat)) (k : String) (v : Nat) :
    (dictInsert d k v).length =
      if k ∈ d.map Prod.fst then d.length else d.length + 1 := by
  have h := dictInsert_fst d k v
  by_cases hk : k ∈ d.map Prod.fst
  · rw [if_pos hk] at h
    rw [if_pos hk]
    simpa using congrArg List.length h
  · rw [if_neg hk] at h
    rw [if_neg hk]
    simpa using congrArg List.length h

/-- Main induction for `count_keywords`: the dict built by the fold has
pairwise distinct keys and exactly one entry per distinct lowercased keyword,
counting from any accumulator with distinct keys. -/
theorem count_fold_card (html : String) :
    ∀ (ks : List String) (acc : List (String × Nat)), (acc.map Prod.fst).Nodup →
      (ks.foldl
        (fun d kw => dictInsert d (pyLower kw) (pyCount (pyLower html).data (pyLower kw).data))
        acc).length =
        ((acc.map Prod.fst).toFinset ∪ (ks.map pyLower).toFinset).card := by
  intro ks
  induction ks with
  | nil =>
    intro acc hnd
    simp only [List.foldl_nil, List.map_nil, List.toFinset_nil, Finset.union_empty]
    rw [List.toFinset_card_of_nodup hnd, List.length_map]
  | cons kw ks ih =>
    intro acc hnd
    rw [List.foldl_cons]
    by_cases hk : pyLower kw ∈ acc.map Prod.fst
    · have hkeys := dictInsert_fst acc (pyLower kw) (pyCount (pyLower html).data (pyLower kw).data)
      rw [if_pos hk] at hkeys
      rw [ih _ (by rw [hkeys]; exact hnd), hkeys]
      simp only [List.map_cons, List.toFinset_cons]
      rw [Finset.union_insert, Finset.insert_eq_self.mpr
        (Finset.mem_union_left _ (List.mem_toFinset.mpr hk))]
    · have hkeys := dictInsert_fst acc (pyLower kw) (pyCount (pyLower html).data (pyLower kw).data)
      rw [if_neg hk] at hkeys
      rw [ih _ (by rw [hkeys]; simp [List.nodup_append, hnd, hk]), hkeys]
      apply congrArg Finset.card
      ext x
      simp only [Finset.mem_union, List.mem_toFinset, List.mem_append, List.mem_singleton,
        List.mem_map, List.mem_cons, List.not_mem_nil, or_false]
      constructor
      · rintro ((h | h) | ⟨y, hy, he⟩)
        · exact Or.inl h
        · exact Or.inr ⟨kw, Or.inl rfl, h.symm⟩
        · exact Or.inr ⟨y, Or.inr hy, he⟩
      · rintro (h | ⟨y, hy | hy, he⟩)
        · exact Or.inl (Or.inl h)
        · subst hy; exact Or.inl (Or.inr he.symm)
        · exact Or.inr ⟨y, hy, he⟩

/-- Claim C2, counterexample: two keywords that agree after lower-casing
collapse into one dict entry, so the mapping can have fewer than `len(K)`
entries for a non-empty K. -/
theorem claim_C2_counterexample :
    ¬ ((count_keywords "x" ["A", "a"]).length = (["A", "a"] : List String).length) := by
  decide

/-- Claim C2 (amended): `count_keywords(C, K)` returns the empty mapping for
an empty keyword list, and otherwise a mapping with exactly one entry per
*distinct lowercased* keyword of K (which equals `len(K)` when the lowercased
keywords are pairwise distinct); every count is a non-negative integer. -/
theorem claim_C2 (html : String) (K : List String) :
    (K = [] → count_keywords html K = []) ∧
    (K ≠ [] → (count_keywords html K).length = (K.map pyLower).toFinset.card) ∧
    (∀ p ∈ count_keywords html K, 0 ≤ p.2) := by
  refine ⟨fun h => by simp [count_keywords, h], fun h => ?_, fun p _ => Nat.zero_le _⟩
  rw [count_keywords, if_neg h]
  have := count_fold_card html K [] (by simp)
  simpa using this

/-- Witness for C2 at the concrete collapsing keyword list. -/
theorem claim_C2_witness :
    (count_keywords "x" ["A", "a"]).length = ((["A", "a"] : List String).map pyLower).toFinset.card :=
  (claim_C2 "x" ["A", "a"]).2.1 (by decide)

theorem store_links_split (visited : Finset String) :
    ∀ (links pool : List String), ∃ new, store_links visited pool links = pool ++ new ∧
      ∀ l ∈ new, l ∈ links ∧ l ∉ visited ∧ l ∉ pool := by
  intro links
  induction links with
  | nil => exact fun pool => ⟨[], by simp [store_links], by simp⟩
  | cons x ls ih =>
    intro pool
    by_cases hx : x ∉ visited ∧ x ∉ pool
    · obtain ⟨new, hev, hprop⟩ := ih (pool ++ [x])
      refine ⟨x :: new, ?_, ?_⟩
      · rw [store_links, List.foldl_cons, if_pos hx]
        rw [store_links] at hev
        rw [hev, List.append_assoc]
        rfl
      · intro l hl
        rcases List.mem_cons.mp hl with rfl | hl'
        · exact ⟨List.mem_cons_self _ _, hx.1, hx.2⟩
        · obtain ⟨h1, h2, h3⟩ := hprop l hl'
          exact ⟨List.mem_cons_of_mem _ h1, h2, fun hc => h3 (by simp [hc])⟩
    · obtain ⟨new, hev, hprop⟩ := ih pool
      refine ⟨new, ?_, ?_⟩
      · rw [store_links, List.foldl_cons, if_neg hx]
        rw [store_links] at hev
        exact hev
      · intro l hl
        obtain ⟨h1, h2, h3⟩ := hprop l hl
        exact ⟨List.mem_cons_of_mem _ h1, h2, h3⟩

/-- Claim C5: `store_links` appends exactly those links that are in neither
the Visited Set nor the Pool (including links appended earlier in the same
call), leaves the existing Pool entries unchanged in place, and hence
preserves the invariant that no visited URL is ever in the Pool. -/
theorem claim_C5 (visited : Finset String) (pool links : List String) :
    (∃ new, store_links visited pool links = pool ++ new ∧
      ∀ l ∈ new, l ∈ links ∧ l ∉ visited ∧ l ∉ pool) ∧
    ((∀ l ∈ pool, l ∉ visited) → ∀ l ∈ store_links visited pool links, l ∉ visited) := by
  refine ⟨store_links_split visited links pool, fun hpool l hl => ?_⟩
  obtain ⟨new, hev, hprop⟩ := store_links_split visited links pool
  rw [hev] at hl
  rcases List.mem_append.mp hl with h | h
  · exact hpool l h
  · exact (hprop l h).2.1

/-- Witness for C5 at a concrete pool/visited/links instance. -/
theorem claim_C5_witness :
    ∀ l ∈ store_links ({"a"} : Finset String) ["b"] ["a", "b", "c"], l ∉ ({"a"} : Finset String) :=
  (claim_C5 ({"a"} : Finset String) ["b"] ["a", "b", "c"]).2 (by decide)

/-- Claim C3: once the producer has drawn a pool entry, the entry is removed
from the Pool (first occurrence, Python `list.remove`) in every branch and is
never put back; when the entry is a duplicate (already visited) the state
changes only by that removal; and when only the capacity check fails the state
also changes only by that removal — in particular the Visited Set, the queue
and the results are unchanged. -/
theorem claim_C3 (maxQ : Nat) (s : SysState) (link n : String)
    (_hmem : link ∈ s.pool) (hn : normalize_url link = some n) :
    ((promoteOne maxQ s link).pool = s.pool.erase link) ∧
    (n ∈ s.visited → promoteOne maxQ s link = { s with pool := s.pool.erase link }) ∧
    (n ∉ s.visited → n ≠ "" → maxQ ≤ s.queue.length →
      promoteOne maxQ s link = { s with pool := s.pool.erase link }) := by
  refine ⟨?_, fun hv => ?_, fun hv hne hq => ?_⟩
  · simp only [promoteOne, hn]
    by_cases h1 : n ≠ "" ∧ n ∉ s.visited
    · rw [if_pos h1]
      by_cases h2 : s.queue.length < maxQ
      · rw [if_pos h2]
      · rw [if_neg h2]
    · rw [if_neg h1]
  · simp only [promoteOne, hn, if_neg (show ¬(n ≠ "" ∧ n ∉ s.visited) by simp [hv])]
  · simp only [promoteOne, hn, if_pos (And.intro hne hv), if_neg (show ¬s.queue.length < maxQ by omega)]

/-- Witness for C3: a concrete capacity-failure promotion (queue already at
`max_queue_size = 1`). -/
theorem claim_C3_witness :
    promoteOne 1 ⟨[some "http://q.com"], ∅, ["http://A.com/"], [], [], true, true, true⟩
        "http://A.com/" =
      { (⟨[some "http://q.com"], ∅, ["http://A.com/"], [], [], true, true, true⟩ : SysState) with
          pool := ["http://A.com/"].erase "http://A.com/" } :=
  (claim_C3 1 ⟨[some "http://q.com"], ∅, ["http://A.com/"], [], [], true, true, true⟩
      "http://A.com/" "http://a.com" (by decide) (by decide)).2.2 (by decide) (by decide) (by decide)

/-- Every atomic step preserves the enqueue invariant: the list of URLs ever
enqueued has no duplicates and is contained in the Visited Set. -/
theorem hist_invariant (maxQ : Nat) (s t : SysState) (hstep : SysStep maxQ s t)
    (h : s.history.Nodup ∧ ∀ u ∈ s.history, u ∈ s.visited) :
    t.history.Nodup ∧ ∀ u ∈ t.history, u ∈ t.visited := by
  obtain ⟨hnd, hsub⟩ := h
  cases hstep with
  | seed u n s hrun hnorm hnv =>
    refine ⟨?_, ?_⟩
    · simp only [List.nodup_append, List.nodup_cons, List.nodup_nil]
      exact ⟨hnd, ⟨by simp, trivial⟩, by
        intro x hx hmem
        rcases List.mem_singleton.mp hmem with rfl
        exact hnv (hsub x hx)⟩
    · intro u hu
      rcases List.mem_append.mp hu with h1 | h1
      · exact Finset.mem_insert_of_mem (hsub u h1)
      · rcases List.mem_singleton.mp h1 with rfl
        exact Finset.mem_insert_self _ _
  | seedDup u n s hrun hnorm hv => exact ⟨hnd, hsub⟩
  | promote link s halive hmem =>
    rcases hnl : normalize_url link with _ | n
    · simp only [promoteOne, hnl]
      exact ⟨hnd, hsub⟩
    · simp only [promoteOne, hnl]
      by_cases h1 : n ≠ "" ∧ n ∉ s.visited
      · rw [if_pos h1]
        by_cases h2 : s.queue.length < maxQ
        · rw [if_pos h2]
          refine ⟨?_, ?_⟩
          · simp only [List.nodup_append, List.nodup_cons, List.nodup_nil]
            exact ⟨hnd, ⟨by simp, trivial⟩, by
              intro x hx hmem
              rcases List.mem_singleton.mp hmem with rfl
              exact h1.2 (hsub x hx)⟩
          · intro u hu
            rcases List.mem_append.mp hu with hh | hh
            · exact Finset.mem_insert_of_mem (hsub u hh)
            · rcases List.mem_singleton.mp hh with rfl
              exact Finset.mem_insert_self _ _
        · rw [if_neg h2]
          exact ⟨hnd, hsub⟩
      · rw [if_neg h1]
        exact ⟨hnd, hsub⟩
  | storeFound links s halive => exact ⟨hnd, hsub⟩
  | addCustomer u s halive => exact ⟨hnd, hsub⟩
  | dequeue s x rest halive hq => exact ⟨hnd, hsub⟩
  | crawlerDone s halive => exact ⟨hnd, hsub⟩
  | crawlerIdleExit s halive hrun => exact ⟨hnd, hsub⟩
  | producerExit s halive hrun => exact ⟨hnd, hsub⟩
  | stopCall s =>
    by_cases hr : s.running = false
    · simp only [stopModel, if_pos hr]
      exact ⟨hnd, hsub⟩
    · simp only [stopModel, if_neg hr]
      exact ⟨hnd, hsub⟩

/-- Claim C6: in every execution of the crawler system from the start state,
no NormalizedURL is ever enqueued into the Frontier Queue twice — the ghost
enqueue history stays duplicate-free — and every URL ever enqueued is in the
Visited Set, because both the controller seeding and the producer promotion
check membership and insert in the same atomic (lock-guarded) step. -/
theorem claim_C6 (maxQ : Nat) (s : SysState) (hreach : SysReach maxQ initState s) :
    s.history.Nodup ∧ ∀ u ∈ s.history, u ∈ s.visited := by
  induction hreach with
  | refl => exact ⟨List.nodup_nil, by intro u hu; exact absurd hu (List.not_mem_nil u)⟩
  | tail hr hstep ih => exact hist_invariant _ _ _ hstep ih

/-- Witness for C6: a concrete two-step run (seed one URL, then re-seeding the
same URL is refused as a duplicate). -/
theorem claim_C6_witness :
    (⟨[some "http://a.com"], {"http://a.com"}, [], [], ["http://a.com"], true, true,
      true⟩ : SysState).history.Nodup ∧
      ∀ u ∈ (⟨[some "http://a.com"], {"http://a.com"}, [], [], ["http://a.com"], true, true,
        true⟩ : SysState).history,
        u ∈ (⟨[some "http://a.com"], {"http://a.com"}, [], [], ["http://a.com"], true, true,
          true⟩ : SysState).visited :=
  claim_C6 5 _ (Relation.ReflTransGen.single
    (SysStep.seed "http://A.com" "http://a.com" initState rfl (by decide) (by decide)))

/-- A state with the run flag cleared and both threads dead takes no step: the
system is frozen. -/
theorem frozen_step (maxQ : Nat) (b c : SysState) (hstep : SysStep maxQ b c)
    (h : b.running = false ∧ b.crawlerAlive = false ∧ b.producerAlive = false) : c = b := by
  obtain ⟨hr, hc, hp⟩ := h
  cases hstep with
  | seed u n s hrun hnorm hnv => rw [hr] at hrun; exact Bool.noConfusion hrun
  | seedDup u n s hrun hnorm hv => rfl
  | promote link s halive hmem => rw [hp] at halive; exact Bool.noConfusion halive
  | storeFound links s halive => rw [hc] at halive; exact Bool.noConfusion halive
  | addCustomer u s halive => rw [hc] at halive; exact Bool.noConfusion halive
  | dequeue s x rest halive hq => rw [hc] at halive; exact Bool.noConfusion halive
  | crawlerDone s halive => rw [hc] at halive; exact Bool.noConfusion halive
  | crawlerIdleExit s halive hrun => rw [hc] at halive; exact Bool.noConfusion halive
  | producerExit s halive hrun => rw [hp] at halive; exact Bool.noConfusion halive
  | stopCall s => simp only [stopModel, if_pos hr]

theorem frozen_reach (maxQ : Nat) (b : SysState)
    (h : b.running = false ∧ b.crawlerAlive = false ∧ b.producerAlive = false) :
    ∀ t, SysReach maxQ b t → t = b := by
  intro t hreach
  induction hreach with
  | refl => rfl
  | tail hr hstep ih =>
    subst ih
    exact frozen_step maxQ _ _ hstep h

/-- Claim C7: `stop()` is a no-op when the run is not active, it is
idempotent, `is_running()` is false after it returns, and — because `stop()`
joins both threads before returning — no step at all is possible afterwards,
so in particular no further CrawlResult is ever appended. -/
theorem claim_C7 (maxQ : Nat) (s : SysState) :
    (s.running = false → stopModel s = s) ∧
    (stopModel (stopModel s) = stopModel s) ∧
    ((stopModel s).running = false) ∧
    (s.running = true → ∀ t, SysReach maxQ (stopModel s) t → t.customers = s.customers) := by
  refine ⟨fun h => by simp [stopModel, h], ?_, ?_, fun hr t hreach => ?_⟩
  · by_cases h : s.running = false
    · simp [stopModel, h]
    · simp [stopModel, h]
  · by_cases h : s.running = false
    · simp [stopModel, h]
    · simp [stopModel, h]
  · have h1 : (stopModel s).running = false ∧ (stopModel s).crawlerAlive = false ∧
        (stopModel s).producerAlive = false ∧ (stopModel s).customers = s.customers := by
      simp [stopModel, hr]
    rw [frozen_reach maxQ (stopModel s) ⟨h1.1, h1.2.1, h1.2.2.1⟩ t hreach]
    exact h1.2.2.2

/-- Witness for C7: stopping the concrete start state freezes the results. -/
theorem claim_C7_witness : (stopModel initState).customers = initState.customers :=
  (claim_C7 5 initState).2.2.2 rfl (stopModel initState) Relation.ReflTransGen.refl

/-- Claim C8, counterexample: `urlparse` treats the part of the last path
segment after a `;` as params and `normalize_url` drops it, so a URL whose
trailing slash protected such a segment is not a fixed point of a second
normalization: normalizing once keeps `;x`, normalizing again removes it. -/
theorem claim_C8_counterexample :
    normalize_url "http://e.com/a;x/" = some "http://e.com/a;x" ∧
    normalize_url "http://e.com/a;x" = some "http://e.com/a" ∧
    ¬ (normalize_url "http://e.com/a;x" = some "http://e.com/a;x") := by decide

/-- Claim C9, counterexample: two URLs that differ only by a trailing slash
produce different keys when the last path segment contains a `;`: the slash
hides the `;params` suffix from `urlparse` on one side only. -/
theorem claim_C9_counterexample :
    ¬ (normalize_url "http://e.com/a;x/" = normalize_url "http://e.com/a;x") := by decide

theorem ne_of_toNat_ne {c d : Char} (h : c.toNat ≠ d.toNat) : c ≠ d :=
  fun he => h (congrArg Char.toNat he)

theorem lowStr_lowStr (l : List Char) : lowStr (lowStr l) = lowStr l := by
  simp only [lowStr, List.map_map]
  exact List.map_congr_left fun c _ => lowc_lowc c

theorem mem_lowStr_special {d : Char} (hd1 : ¬(65 ≤ d.toNat ∧ d.toNat ≤ 90))
    (hd2 : ¬(97 ≤ d.toNat ∧ d.toNat ≤ 122)) (l : List Char) : d ∈ lowStr l ↔ d ∈ l := by
  simp only [lowStr, List.mem_map]
  constructor
  · rintro ⟨x, hx, he⟩
    rwa [(lowc_eq_iff hd1 hd2).mp he] at hx
  · intro h
    exact ⟨d, h, (lowc_eq_iff hd1 hd2).mpr rfl⟩

theorem asciiAlpha_toNat {c : Char} (h : asciiAlpha c = true) :
    (65 ≤ c.toNat ∧ c.toNat ≤ 90) ∨ (97 ≤ c.toNat ∧ c.toNat ≤ 122) := by
  simp only [asciiAlpha, Bool.or_eq_true, decide_eq_true_eq] at h
  exact h

theorem asciiDigit_toNat {c : Char} (h : asciiDigit c = true) :
    48 ≤ c.toNat ∧ c.toNat ≤ 57 := by
  simp only [asciiDigit, decide_eq_true_eq] at h
  exact h

theorem char_eq_iff_toNat {c d : Char} : c = d ↔ c.toNat = d.toNat :=
  ⟨congrArg Char.toNat, toNat_inj⟩

theorem isSchemeChar_iff (c : Char) : isSchemeChar c = true ↔
    ((65 ≤ c.toNat ∧ c.toNat ≤ 90) ∨ (97 ≤ c.toNat ∧ c.toNat ≤ 122) ∨
    (48 ≤ c.toNat ∧ c.toNat ≤ 57) ∨ c.toNat = 43 ∨ c.toNat = 45 ∨ c.toNat = 46) := by
  simp only [isSchemeChar, asciiAlpha, asciiDigit, Bool.or_eq_true, decide_eq_true_eq,
    beq_iff_eq, char_eq_iff_toNat]
  rw [show ('+' : Char).toNat = 43 from rfl, show ('-' : Char).toNat = 45 from rfl,
    show ('.' : Char).toNat = 46 from rfl]
  tauto

theorem lowc_alpha {c : Char} (h : asciiAlpha c = true) : asciiAlpha (lowc c) = true := by
  simp only [asciiAlpha, Bool.or_eq_true, decide_eq_true_eq] at h ⊢
  rcases h with hu | hl
  · have := lowc_toNat hu; omega
  · rw [lowc_eq_self (by omega)]; omega

theorem lowc_schemeChar {c : Char} (h : isSchemeChar c = true) :
    isSchemeChar (lowc c) = true := by
  rw [isSchemeChar_iff] at h ⊢
  by_cases hu : 65 ≤ c.toNat ∧ c.toNat ≤ 90
  · have := lowc_toNat hu; omega
  · rw [lowc_eq_self hu]; exact h

theorem headD_app {l r : List Char} (d : Char) (h : l ≠ []) : (l ++ r).headD d = l.headD d := by
  cases l with
  | nil => exact absurd rfl h
  | cons a t => rfl

theorem dropWhile_idem (p : Char → Bool) (l : List Char) :
    (l.dropWhile p).dropWhile p = l.dropWhile p := by
  induction l with
  | nil => rfl
  | cons a t ih =>
    by_cases h : p a = true
    · rw [List.dropWhile_cons_of_pos h, ih]
    · rw [List.dropWhile_cons_of_neg h, List.dropWhile_cons_of_neg h]

theorem rstrip_idem (p : List Char) : rstripSlash (rstripSlash p) = rstripSlash p := by
  simp only [rstripSlash, List.reverse_reverse]
  rw [dropWhile_idem]

theorem rstrip_app_slash (p : List Char) : rstripSlash (p ++ ['/']) = rstripSlash p := by
  simp only [rstripSlash, List.reverse_append, List.reverse_cons, List.reverse_nil,
    List.nil_append, List.singleton_append]
  rw [List.dropWhile_cons_of_pos (by rfl)]

theorem rstrip_decomp (p : List Char) :
    ∃ k, p = rstripSlash p ++ List.replicate k '/' := by
  refine ⟨(p.reverse.takeWhile (fun c => c == '/')).length, ?_⟩
  have h1 : p.reverse.takeWhile (fun c => c == '/') =
      List.replicate (p.reverse.takeWhile (fun c => c == '/')).length '/' :=
    List.eq_replicate_of_mem (fun b hb => by
      have := List.mem_takeWhile_imp hb
      simpa using this)
  have h3 : (p.reverse.takeWhile (fun c => c == '/')).reverse =
      List.replicate (p.reverse.takeWhile (fun c => c == '/')).length '/' := by
    conv_lhs => rw [h1]
    rw [List.reverse_replicate]
  calc p = p.reverse.reverse := (List.reverse_reverse p).symm
    _ = (p.reverse.takeWhile (fun c => c == '/') ++
        p.reverse.dropWhile (fun c => c == '/')).reverse := by
        rw [List.takeWhile_append_dropWhile]
    _ = (p.reverse.dropWhile (fun c => c == '/')).reverse ++
        (p.reverse.takeWhile (fun c => c == '/')).reverse := by
        rw [List.reverse_append]
    _ = rstripSlash p ++
        List.replicate (p.reverse.takeWhile (fun c => c == '/')).length '/' := by
        rw [rstripSlash, h3]

theorem mem_rstrip {x : Char} {p : List Char} (h : x ∈ rstripSlash p) : x ∈ p := by
  rw [rstripSlash] at h
  rw [List.mem_reverse] at h
  have := List.dropWhile_subset (l := p.reverse) (fun c => c == '/') h
  rwa [List.mem_reverse] at this

theorem dropWhileCongr {p q : Char → Bool} :
    ∀ {l : List Char}, (∀ x ∈ l, p x = q x) → l.dropWhile p = l.dropWhile q := by
  intro l
  induction l with
  | nil => intro _; rfl
  | cons a t ih =>
    intro h
    rw [List.dropWhile_cons, List.dropWhile_cons, h a (by simp)]
    by_cases hq : q a = true
    · rw [if_pos hq, if_pos hq, ih fun x hx => h x (by simp [hx])]
    · rw [if_neg hq, if_neg hq]

theorem takeWhileCongr {p q : Char → Bool} :
    ∀ {l : List Char}, (∀ x ∈ l, p x = q x) → l.takeWhile p = l.takeWhile q := by
  intro l
  induction l with
  | nil => intro _; rfl
  | cons a t ih =>
    intro h
    rw [List.takeWhile_cons, List.takeWhile_cons, h a (by simp)]
    by_cases hq : q a = true
    · rw [if_pos hq, if_pos hq, ih fun x hx => h x (by simp [hx])]
    · rw [if_neg hq, if_neg hq]

theorem schemeChar_ne_colon {c : Char} (h : isSchemeChar c = true) : c ≠ ':' := by
  rw [isSchemeChar_iff] at h
  exact ne_of_toNat_ne (by rw [show (':' : Char).toNat = 58 from rfl]; omega)

theorem SchemeOk_lowStr {s : List Char} (h : SchemeOk s) : SchemeOk (lowStr s) := by
  obtain ⟨hne, hhd, hall⟩ := h
  refine ⟨by simp [lowStr, hne], ?_, ?_⟩
  · cases s with
    | nil => exact absurd rfl hne
    | cons a t => exact lowc_alpha hhd
  · rw [List.all_eq_true] at hall ⊢
    intro x hx
    rw [lowStr, List.mem_map] at hx
    obtain ⟨y, hy, rfl⟩ := hx
    exact lowc_schemeChar (hall y hy)

theorem splitScheme_app {s : List Char} (h : SchemeOk s) (rest : List Char) :
    splitScheme (s ++ ':' :: rest) = (lowStr s, rest) := by
  obtain ⟨hne, hhd, hall⟩ := h
  rw [List.all_eq_true] at hall
  have hcolon : ∀ x ∈ s, neChar ':' x = true := fun x hx =>
    neChar_true.mpr (schemeChar_ne_colon (hall x hx))
  have htake : (s ++ ':' :: rest).takeWhile (neChar ':') = s := by
    rw [takeWhile_app_all _ hcolon, List.takeWhile_cons_of_neg (by simp [neChar]),
      List.append_nil]
  have hdrop : (s ++ ':' :: rest).dropWhile (neChar ':') = ':' :: rest := by
    rw [dropWhile_app_all _ hcolon, List.dropWhile_cons_of_neg (by simp [neChar])]
  rw [splitScheme]
  simp only [htake, hdrop]
  rw [if_pos]
  refine ⟨by cases s with | nil => exact absurd rfl hne | cons a t => simp, ?_, ?_⟩
  · rw [headD_app _ hne]
    exact hhd
  · rw [List.all_eq_true]
    exact hall

theorem dropWhile_head_false {p : Char → Bool} :
    ∀ {l : List Char} {x : Char} {xs : List Char}, l.dropWhile p = x :: xs → p x = false := by
  intro l
  induction l with
  | nil => intro x xs h; exact List.noConfusion h
  | cons a t ih =>
    intro x xs h
    by_cases ha : p a = true
    · rw [List.dropWhile_cons_of_pos ha] at h
      exact ih h
    · rw [List.dropWhile_cons_of_neg ha] at h
      injection h with h1 _
      subst h1
      exact Bool.eq_false_iff.mpr ha

theorem splitScheme_not_alpha {url : List Char}
    (h : asciiAlpha (url.headD ':') = false) : splitScheme url = ([], url) := by
  rcases hd : url.dropWhile (neChar ':') with _ | ⟨x, xs⟩
  · simp only [splitScheme, hd]
  · simp only [splitScheme, hd]
    rw [if_neg]
    rintro ⟨-, h2, -⟩
    rw [h] at h2
    exact Bool.noConfusion h2

theorem splitScheme_no_colon {url : List Char} (h : ':' ∉ url) :
    splitScheme url = ([], url) := by
  have hd : url.dropWhile (neChar ':') = [] := by
    rcases he : url.dropWhile (neChar ':') with _ | ⟨x, xs⟩
    · rfl
    · have hx : x = ':' := neChar_false.mp (dropWhile_head_false he)
      subst hx
      exact absurd (List.dropWhile_subset _ (by rw [he]; exact List.mem_cons_self _ _)) h
  simp only [splitScheme, hd]

theorem splitScheme_spec (url : List Char) :
    (splitScheme url).1 = [] ∧ (splitScheme url).2 = url ∨
    ∃ raw, SchemeOk raw ∧ (splitScheme url).1 = lowStr raw ∧
      url = raw ++ ':' :: (splitScheme url).2 := by
  rcases hd : url.dropWhile (neChar ':') with _ | ⟨x, xs⟩
  · simp only [splitScheme, hd]
    exact Or.inl ⟨by trivial, by trivial⟩
  · have hx : x = ':' := neChar_false.mp (dropWhile_head_false hd)
    subst hx
    by_cases hcond : 0 < (url.takeWhile (neChar ':')).length ∧
        asciiAlpha (url.headD ':') = true ∧ (url.takeWhile (neChar ':')).all isSchemeChar = true
    · simp only [splitScheme, hd, if_pos hcond]
      have hne : url.takeWhile (neChar ':') ≠ [] := by
        intro hnil
        rw [hnil] at hcond
        exact absurd hcond.1 (by simp)
      have hpre : url = url.takeWhile (neChar ':') ++ ':' :: xs := by
        conv_lhs => rw [← List.takeWhile_append_dropWhile (p := neChar ':') (l := url), hd]
      refine Or.inr ⟨url.takeWhile (neChar ':'), ⟨hne, ?_, hcond.2.2⟩, rfl, hpre⟩
      have h2 := hcond.2.1
      rw [hpre] at h2
      rwa [headD_app _ hne] at h2
    · simp only [splitScheme, hd, if_neg hcond]
      exact Or.inl ⟨by trivial, by trivial⟩

theorem notDelim_iff {c : Char} : notDelim c = true ↔ c ≠ '/' ∧ c ≠ '?' ∧ c ≠ '#' := by
  simp [notDelim, not_or, and_assoc]

theorem splitNetloc_cons2 (rest : List Char) :
    splitNetloc ('/' :: '/' :: rest) = (rest.takeWhile notDelim, rest.dropWhile notDelim) := rfl

theorem splitNetloc_not {url : List Char} (h : ∀ t, url ≠ '/' :: '/' :: t) :
    splitNetloc url = ([], url) := by
  rw [splitNetloc.eq_def]
  split
  · rename_i rest
    exact absurd rfl (h rest)
  · rfl

theorem splitNetloc_spec (url : List Char) :
    ((splitNetloc url).1 = [] ∧ (splitNetloc url).2 = url ∧ ∀ t, url ≠ '/' :: '/' :: t) ∨
    (∃ t, url = '/' :: '/' :: t ∧ (splitNetloc url).1 = t.takeWhile notDelim ∧
      (splitNetloc url).2 = t.dropWhile notDelim) := by
  by_cases h : ∃ t, url = '/' :: '/' :: t
  · obtain ⟨t, rfl⟩ := h
    exact Or.inr ⟨t, rfl, rfl, rfl⟩
  · rw [splitNetloc_not (fun t ht => h ⟨t, ht⟩)]
    exact Or.inl ⟨rfl, rfl, fun t ht => h ⟨t, ht⟩⟩

theorem cutAt_not_mem {c : Char} {l : List Char} (h : c ∉ l) : cutAt c l = (l, []) := by
  have hall : ∀ x ∈ l, neChar c x = true := fun x hx =>
    neChar_true.mpr (fun he => h (he ▸ hx))
  rw [cutAt, takeWhile_all hall, dropWhile_all hall]
  rfl

theorem cutAt_app {c : Char} {l : List Char} (h : c ∉ l) (r : List Char) :
    cutAt c (l ++ c :: r) = (l, r) := by
  have hall : ∀ x ∈ l, neChar c x = true := fun x hx =>
    neChar_true.mpr (fun he => h (he ▸ hx))
  rw [cutAt, takeWhile_app_all _ hall, dropWhile_app_all _ hall,
    List.takeWhile_cons_of_neg (by simp [neChar]), List.dropWhile_cons_of_neg (by simp [neChar]),
    List.append_nil]
  rfl

theorem toNat_ofNat_small {n : Nat} (h : n < 55296) : (Char.ofNat n).toNat = n := by
  rw [Char.ofNat, dif_pos (Or.inl h)]
  rfl

theorem digitsOfNatAux_spec :
    ∀ (fuel n : Nat), n < fuel →
      (∀ c ∈ digitsOfNatAux fuel n, asciiDigit c = true) ∧
      digitsVal (digitsOfNatAux fuel n) = n ∧ digitsOfNatAux fuel n ≠ [] := by
  intro fuel
  induction fuel with
  | zero => intro n h; omega
  | succ f ih =>
    intro n h
    by_cases h10 : n < 10
    · rw [digitsOfNatAux, if_pos h10]
      have hv : (Char.ofNat (n + 48)).toNat = n + 48 := toNat_ofNat_small (by omega)
      refine ⟨?_, ?_, by simp⟩
      · intro c hc
        rcases List.mem_singleton.mp hc with rfl
        simp only [asciiDigit, decide_eq_true_eq]
        omega
      · simp only [digitsVal, List.foldl_cons, List.foldl_nil, hv]
        omega
    · rw [digitsOfNatAux, if_neg h10]
      have hdiv : n / 10 < f := by
        have := Nat.div_lt_self (by omega : 0 < n) (by omega : 1 < 10)
        omega
      obtain ⟨hdig, hval, hne⟩ := ih (n / 10) hdiv
      have hv : (Char.ofNat (n % 10 + 48)).toNat = n % 10 + 48 :=
        toNat_ofNat_small (by omega)
      refine ⟨?_, ?_, by simp⟩
      · intro c hc
        rcases List.mem_append.mp hc with hc | hc
        · exact hdig c hc
        · rcases List.mem_singleton.mp hc with rfl
          simp only [asciiDigit, decide_eq_true_eq]
          omega
      · rw [digitsVal, List.foldl_append]
        rw [show List.foldl (fun a c => a * 10 + (c.toNat - 48)) 0 (digitsOfNatAux f (n / 10)) =
          digitsVal (digitsOfNatAux f (n / 10)) from rfl, hval]
        simp only [List.foldl_cons, List.foldl_nil, hv]
        omega

theorem digitsOfNat_digits {n : Nat} : ∀ c ∈ digitsOfNat n, asciiDigit c = true :=
  (digitsOfNatAux_spec (n + 1) n (by omega)).1

theorem digitsVal_digitsOfNat (n : Nat) : digitsVal (digitsOfNat n) = n :=
  (digitsOfNatAux_spec (n + 1) n (by omega)).2.1

theorem digitsOfNat_ne_nil (n : Nat) : digitsOfNat n ≠ [] :=
  (digitsOfNatAux_spec (n + 1) n (by omega)).2.2

theorem portOf_digits {n : Nat} (h : n ≤ 65535) : portOf (digitsOfNat n) = some (some n) := by
  rw [portOf, if_neg (digitsOfNat_ne_nil n),
    if_pos (List.all_eq_true.mpr digitsOfNat_digits), digitsVal_digitsOfNat, if_pos h]

theorem splitParams_no {p : List Char} (h : ';' ∉ p) : splitParamsPath p = p := by
  rw [splitParamsPath, if_neg h]

theorem hostSplit_plain {nl : List Char} (hat : '@' ∉ nl) (hbr : '[' ∉ nl) :
    hostSplit nl = (nl.takeWhile (neChar ':'), (nl.dropWhile (neChar ':')).drop 1) := by
  have hinfo : (nl.reverse.takeWhile (neChar '@')).reverse = nl := by
    rw [takeWhile_all (fun x hx => neChar_true.mpr (fun he => by
      subst he; exact hat (List.mem_reverse.mp hx))), List.reverse_reverse]
  simp only [hostSplit, hinfo]
  rw [if_neg hbr]

theorem hostSplit_app {h ds : List Char} (hh : ∀ c ∈ h, c ≠ ':' ∧ c ≠ '@' ∧ c ≠ '[')
    (hds : ∀ c ∈ ds, c ≠ '@' ∧ c ≠ '[') : hostSplit (h ++ ':' :: ds) = (h, ds) := by
  have hat : '@' ∉ h ++ ':' :: ds := by
    intro hmem
    rcases List.mem_append.mp hmem with hm | hm
    · exact (hh _ hm).2.1 rfl
    · rcases List.mem_cons.mp hm with he | hm
      · exact absurd he.symm (by decide)
      · exact (hds _ hm).1 rfl
  have hbr : '[' ∉ h ++ ':' :: ds := by
    intro hmem
    rcases List.mem_append.mp hmem with hm | hm
    · exact (hh _ hm).2.2 rfl
    · rcases List.mem_cons.mp hm with he | hm
      · exact absurd he.symm (by decide)
      · exact (hds _ hm).2 rfl
  rw [hostSplit_plain hat hbr,
    takeWhile_app_all _ (fun x hx => neChar_true.mpr (hh x hx).1),
    dropWhile_app_all _ (fun x hx => neChar_true.mpr (hh x hx).1),
    List.takeWhile_cons_of_neg (by simp [neChar]), List.dropWhile_cons_of_neg (by simp [neChar]),
    List.append_nil]
  rfl

theorem hostSplit_noport {h : List Char} (hh : ∀ c ∈ h, c ≠ ':' ∧ c ≠ '@' ∧ c ≠ '[') :
    hostSplit h = (h, []) := by
  have hat : '@' ∉ h := fun hmem => (hh _ hmem).2.1 rfl
  have hbr : '[' ∉ h := fun hmem => (hh _ hmem).2.2 rfl
  rw [hostSplit_plain hat hbr,
    takeWhile_all (fun x hx => neChar_true.mpr (hh x hx).1),
    dropWhile_all (fun x hx => neChar_true.mpr (hh x hx).1)]
  rfl

theorem stripC0_eq_self {l : List Char} (h : l = [] ∨ 32 < (l.headD ' ').toNat) :
    stripC0 l = l := by
  cases l with
  | nil => rfl
  | cons a t =>
    rcases h with h | h
    · exact List.noConfusion h
    · exact List.dropWhile_cons_of_neg (by simp only [List.headD_cons] at h; simp; omega)

theorem gt32_not_unsafe {c : Char} (h : 32 < c.toNat) : c ≠ '\t' ∧ c ≠ '\r' ∧ c ≠ '\n' :=
  ⟨ne_of_toNat_ne (by rw [show ('\t' : Char).toNat = 9 from rfl]; omega),
   ne_of_toNat_ne (by rw [show ('\r' : Char).toNat = 13 from rfl]; omega),
   ne_of_toNat_ne (by rw [show ('\n' : Char).toNat = 10 from rfl]; omega)⟩

theorem removeUnsafe_eq_self {l : List Char} (h : ∀ c ∈ l, c ≠ '\t' ∧ c ≠ '\r' ∧ c ≠ '\n') :
    removeUnsafe l = l := by
  rw [removeUnsafe, List.filter_eq_self]
  intro a ha
  obtain ⟨h1, h2, h3⟩ := h a ha
  simp [h1, h2, h3]

theorem portPart_chars (po : Option Nat) : ∀ c ∈ portPart po, c = ':' ∨ asciiDigit c = true := by
  cases po with
  | none => intro c hc; exact absurd hc (List.not_mem_nil c)
  | some n =>
    intro c hc
    rcases List.mem_cons.mp hc with rfl | hc
    · exact Or.inl rfl
    · exact Or.inr (digitsOfNat_digits c hc)

theorem optPart_chars (c0 : Char) (o : Option (List Char)) :
    ∀ c ∈ optPart c0 o, c = c0 ∨ ∃ l, o = some l ∧ c ∈ l := by
  cases o with
  | none => intro c hc; exact absurd hc (List.not_mem_nil c)
  | some l =>
    intro c hc
    rcases List.mem_cons.mp hc with rfl | hc
    · exact Or.inl rfl
    · exact Or.inr ⟨l, rfl, hc⟩

theorem mkUrl_gt32 {s h p : List Char} {q f : Option (List Char)} (po : Option Nat)
    (hs : SchemeOk s) (hh : HostOk h) (hp : PathOk p) (hq : QueryOk q) (hf : FragOk f) :
    ∀ c ∈ mkUrl s h po p q f, 32 < c.toNat := by
  intro c hc
  rw [mkUrl] at hc
  rcases List.mem_append.mp hc with hc | hc
  · have := (isSchemeChar_iff c).mp (List.all_eq_true.mp hs.2.2 c hc)
    omega
  · rcases List.mem_cons.mp hc with rfl | hc
    · rw [show (':' : Char).toNat = 58 from rfl]; omega
    rcases List.mem_cons.mp hc with rfl | hc
    · rw [show ('/' : Char).toNat = 47 from rfl]; omega
    rcases List.mem_cons.mp hc with rfl | hc
    · rw [show ('/' : Char).toNat = 47 from rfl]; omega
    rcases List.mem_append.mp hc with hc | hc
    rotate_left
    · rcases optPart_chars '#' f c hc with rfl | ⟨l, hl, hcl⟩
      · rw [show ('#' : Char).toNat = 35 from rfl]; omega
      · exact hf l hl c hcl
    rcases List.mem_append.mp hc with hc | hc
    rotate_left
    · rcases optPart_chars '?' q c hc with rfl | ⟨l, hl, hcl⟩
      · rw [show ('?' : Char).toNat = 63 from rfl]; omega
      · exact (hq l hl c hcl).2
    rcases List.mem_append.mp hc with hc | hc
    rotate_left
    · exact (hp.2 c hc).2.2.2
    rcases List.mem_append.mp hc with hc | hc
    · exact (hh c hc).2.2.2.2.2.2.2
    · rcases portPart_chars po c hc with rfl | hd
      · rw [show (':' : Char).toNat = 58 from rfl]; omega
      · have := asciiDigit_toNat hd; omega

theorem urlsplit_mkUrl {s h p : List Char} {q f : Option (List Char)} (po : Option Nat)
    (hs : SchemeOk s) (hh : HostOk h) (hp : PathOk p) (hq : QueryOk q) (hf : FragOk f) :
    urlsplitModel (mkUrl s h po p q f) =
      some ⟨lowStr s, h ++ portPart po, p, q.getD [], f.getD []⟩ := by
  have hgt := mkUrl_gt32 po hs hh hp hq hf
  have hpre : removeUnsafe (stripC0 (mkUrl s h po p q f)) = mkUrl s h po p q f := by
    rw [stripC0_eq_self, removeUnsafe_eq_self (fun c hc => gt32_not_unsafe (hgt c hc))]
    right
    rw [mkUrl, headD_app _ hs.1]
    have he : s.headD ' ' = s.headD ':' := by
      cases s with
      | nil => exact absurd rfl hs.1
      | cons a t => rfl
    rw [he]
    have := asciiAlpha_toNat hs.2.1
    omega
  have hss : splitScheme (mkUrl s h po p q f) =
      (lowStr s, '/' :: '/' :: (h ++ portPart po ++ p ++ optPart '?' q ++ optPart '#' f)) := by
    rw [mkUrl]
    exact splitScheme_app hs _
  have hnetchars : ∀ c ∈ h ++ portPart po, notDelim c = true := by
    intro c hc
    rcases List.mem_append.mp hc with hc | hc
    · obtain ⟨h1, h2, h3, -⟩ := hh c hc
      exact notDelim_iff.mpr ⟨h1, h2, h3⟩
    · rcases portPart_chars po c hc with rfl | hd
      · exact notDelim_iff.mpr ⟨by decide, by decide, by decide⟩
      · have := asciiDigit_toNat hd
        exact notDelim_iff.mpr
          ⟨ne_of_toNat_ne (by rw [show ('/' : Char).toNat = 47 from rfl]; omega),
           ne_of_toNat_ne (by rw [show ('?' : Char).toNat = 63 from rfl]; omega),
           ne_of_toNat_ne (by rw [show ('#' : Char).toNat = 35 from rfl]; omega)⟩
  have hrest0 : h ++ portPart po ++ p ++ optPart '?' q ++ optPart '#' f =
      (h ++ portPart po) ++ (p ++ optPart '?' q ++ optPart '#' f) := by
    simp [List.append_assoc]
  have hstop : (p ++ optPart '?' q ++ optPart '#' f).takeWhile notDelim = [] ∧
      (p ++ optPart '?' q ++ optPart '#' f).dropWhile notDelim =
        p ++ optPart '?' q ++ optPart '#' f := by
    have hcase : p ++ optPart '?' q ++ optPart '#' f = [] ∨
        ∃ x t, p ++ optPart '?' q ++ optPart '#' f = x :: t ∧ notDelim x = false := by
      rcases hp.1 with hpe | hphd
      · subst hpe
        cases q with
        | some lq => exact Or.inr ⟨'?', lq ++ optPart '#' f, by simp [optPart], by decide⟩
        | none =>
          cases f with
          | some lf => exact Or.inr ⟨'#', lf, by simp [optPart], by decide⟩
          | none => exact Or.inl (by simp [optPart])
      · cases p with
        | nil => exact absurd hphd (by decide)
        | cons a t =>
          simp only [List.headD_cons] at hphd
          subst hphd
          exact Or.inr ⟨'/', t ++ optPart '?' q ++ optPart '#' f, by simp, by decide⟩
    rcases hcase with he | ⟨x, t, he, hx⟩
    · rw [he]
      exact ⟨rfl, rfl⟩
    · rw [he, List.takeWhile_cons_of_neg (by rw [hx]; exact Bool.false_ne_true),
        List.dropWhile_cons_of_neg (by rw [hx]; exact Bool.false_ne_true)]
      exact ⟨rfl, rfl⟩
  have hns : splitNetloc ('/' :: '/' :: (h ++ portPart po ++ p ++ optPart '?' q ++ optPart '#' f)) =
      (h ++ portPart po, p ++ optPart '?' q ++ optPart '#' f) := by
    rw [splitNetloc_cons2, hrest0, takeWhile_app_all _ hnetchars, dropWhile_app_all _ hnetchars,
      hstop.1, hstop.2, List.append_nil]
  have hbr : ¬(('[' ∈ h ++ portPart po ∧ ']' ∉ h ++ portPart po) ∨
      (']' ∈ h ++ portPart po ∧ '[' ∉ h ++ portPart po)) := by
    have hnb : '[' ∉ h ++ portPart po ∧ ']' ∉ h ++ portPart po := by
      constructor <;> intro hc <;> rcases List.mem_append.mp hc with hc | hc
      · exact (hh _ hc).2.2.2.2.2.1 rfl
      · rcases portPart_chars po _ hc with he | hd
        · exact absurd he (by decide)
        · have := asciiDigit_toNat hd
          rw [show ('[' : Char).toNat = 91 from rfl] at this
          omega
      · exact (hh _ hc).2.2.2.2.2.2.1 rfl
      · rcases portPart_chars po _ hc with he | hd
        · exact absurd he (by decide)
        · have := asciiDigit_toNat hd
          rw [show (']' : Char).toNat = 93 from rfl] at this
          omega
    rintro (⟨hc, -⟩ | ⟨hc, -⟩)
    · exact hnb.1 hc
    · exact hnb.2 hc
  have hfr : cutAt '#' (p ++ optPart '?' q ++ optPart '#' f) =
      (p ++ optPart '?' q, f.getD []) := by
    have hnotin : '#' ∉ p ++ optPart '?' q := by
      intro hc
      rcases List.mem_append.mp hc with hc | hc
      · exact (hp.2 _ hc).2.1 rfl
      · rcases optPart_chars '?' q _ hc with he | ⟨l, hl, hcl⟩
        · exact absurd he (by decide)
        · exact (hq l hl _ hcl).1 rfl
    cases f with
    | none =>
      rw [show optPart '#' (none : Option (List Char)) = [] from rfl, List.append_nil,
        cutAt_not_mem hnotin]
      rfl
    | some lf =>
      rw [show optPart '#' (some lf) = '#' :: lf from rfl, cutAt_app hnotin]
      rfl
  have hqr : cutAt '?' (p ++ optPart '?' q) = (p, q.getD []) := by
    have hnotin : '?' ∉ p := fun hc => (hp.2 _ hc).1 rfl
    cases q with
    | none =>
      rw [show optPart '?' (none : Option (List Char)) = [] from rfl, List.append_nil,
        cutAt_not_mem hnotin]
      rfl
    | some lq =>
      rw [show optPart '?' (some lq) = '?' :: lq from rfl, cutAt_app hnotin]
      rfl
  rw [urlsplitModel]
  simp only [hpre, hss, hns, hfr, hqr]
  rw [if_neg hbr]

theorem HostOk_lowStr {h : List Char} (hh : HostOk h) : HostOk (lowStr h) := by
  intro c hc
  rw [lowStr, List.mem_map] at hc
  obtain ⟨y, hy, rfl⟩ := hc
  obtain ⟨h1, h2, h3, h4, h5, h6, h7, h8⟩ := hh y hy
  refine ⟨?_, ?_, ?_, ?_, ?_, ?_, ?_, lowc_toNat_le y h8⟩
  · exact fun he => h1 ((lowc_eq_iff (by decide) (by decide)).mp he)
  · exact fun he => h2 ((lowc_eq_iff (by decide) (by decide)).mp he)
  · exact fun he => h3 ((lowc_eq_iff (by decide) (by decide)).mp he)
  · exact fun he => h4 ((lowc_eq_iff (by decide) (by decide)).mp he)
  · exact fun he => h5 ((lowc_eq_iff (by decide) (by decide)).mp he)
  · exact fun he => h6 ((lowc_eq_iff (by decide) (by decide)).mp he)
  · exact fun he => h7 ((lowc_eq_iff (by decide) (by decide)).mp he)

theorem normSplit_mkRec {S h p q' f' : List Char} (po : Option Nat)
    (hh : HostOk h) (hpok : ';' ∉ p) (hpo : ∀ x, po = some x → x ≤ 65535) :
    normSplit ⟨S, h ++ portPart po, p, q', f'⟩ =
      some (unsplitModel (lowStr S)
        (if (lowStr S = "http".data ∧ po = some 80) ∨ (lowStr S = "https".data ∧ po = some 443)
          then lowStr h
          else po.elim (lowStr h)
            (fun x => if x ≠ 0 then lowStr h ++ ':' :: digitsOfNat x else lowStr h))
        (lowStr (rstripSlash p))) := by
  have hhost : ∀ c ∈ h, c ≠ ':' ∧ c ≠ '@' ∧ c ≠ '[' := fun c hc =>
    ⟨(hh c hc).2.2.2.1, (hh c hc).2.2.2.2.1, (hh c hc).2.2.2.2.2.1⟩
  cases po with
  | none =>
    have hsp : hostSplit (h ++ portPart none) = (h, []) := by
      rw [show portPart none = [] from rfl, List.append_nil, hostSplit_noport hhost]
    rw [normSplit]
    simp only [hsp, splitParams_no hpok]
    rfl
  | some x =>
    have hsp : hostSplit (h ++ portPart (some x)) = (h, digitsOfNat x) := by
      rw [show portPart (some x) = ':' :: digitsOfNat x from rfl]
      apply hostSplit_app hhost
      intro c hc
      have := asciiDigit_toNat (digitsOfNat_digits c hc)
      exact ⟨ne_of_toNat_ne (by rw [show ('@' : Char).toNat = 64 from rfl]; omega),
        ne_of_toNat_ne (by rw [show ('[' : Char).toNat = 91 from rfl]; omega)⟩
    rw [normSplit]
    simp only [hsp, portOf_digits (hpo x rfl), splitParams_no hpok]
    rfl

theorem normalize_mkUrl {s h p : List Char} {q f : Option (List Char)} (po : Option Nat)
    (hs : SchemeOk s) (hh : HostOk h) (hp : PathOk p) (hq : QueryOk q) (hf : FragOk f)
    (hpo : ∀ x, po = some x → x ≤ 65535) :
    normalizeList (mkUrl s h po p q f) =
      some (unsplitModel (lowStr s)
        (if (lowStr s = "http".data ∧ po = some 80) ∨ (lowStr s = "https".data ∧ po = some 443)
          then lowStr h
          else po.elim (lowStr h)
            (fun x => if x ≠ 0 then lowStr h ++ ':' :: digitsOfNat x else lowStr h))
        (lowStr (rstripSlash p))) := by
  rw [normalizeList, urlsplit_mkUrl po hs hh hp hq hf, Option.some_bind,
    normSplit_mkRec po hh (fun hc => (hp.2 _ hc).2.2.1 rfl) hpo, lowStr_lowStr]

/-- Claim C9 (amended): over well-formed URL components with a semicolon-free
path, `normalize_url` identifies URLs differing only in scheme/host
letter-case, only by a trailing slash, or only by the presence of the default
port (80 for http, 443 for https), and it strips query and fragment. -/
theorem claim_C9 (s h p : List Char) (q f : Option (List Char)) (po : Option Nat)
    (hs : SchemeOk s) (hh : HostOk h) (hp : PathOk p) (hq : QueryOk q) (hf : FragOk f)
    (hpo : ∀ x, po = some x → x ≤ 65535) :
    (normalizeList (mkUrl s h po p q f) =
      normalizeList (mkUrl (lowStr s) (lowStr h) po p q f)) ∧
    (normalizeList (mkUrl s h po (p ++ ['/']) q f) = normalizeList (mkUrl s h po p q f)) ∧
    (normalizeList (mkUrl s h po p q f) = normalizeList (mkUrl s h po p none none)) ∧
    (lowStr s = "http".data →
      normalizeList (mkUrl s h (some 80) p q f) = normalizeList (mkUrl s h none p q f)) ∧
    (lowStr s = "https".data →
      normalizeList (mkUrl s h (some 443) p q f) = normalizeList (mkUrl s h none p q f)) := by
  have hqn : QueryOk none := fun l hl => Option.noConfusion hl
  have hfn : FragOk none := fun l hl => Option.noConfusion hl
  refine ⟨?_, ?_, ?_, fun hS => ?_, fun hS => ?_⟩
  · rw [normalize_mkUrl po hs hh hp hq hf hpo,
      normalize_mkUrl po (SchemeOk_lowStr hs) (HostOk_lowStr hh) hp hq hf hpo,
      lowStr_lowStr, lowStr_lowStr]
  · have hps : PathOk (p ++ ['/']) := by
      refine ⟨?_, ?_⟩
      · rcases hp.1 with he | hhd
        · subst he; exact Or.inr rfl
        · cases p with
          | nil => exact Or.inr rfl
          | cons a t => exact Or.inr hhd
      · intro c hc
        rcases List.mem_append.mp hc with hc | hc
        · exact hp.2 c hc
        · rcases List.mem_singleton.mp hc with rfl
          exact ⟨by decide, by decide, by decide, by decide⟩
    rw [normalize_mkUrl po hs hh hps hq hf hpo, normalize_mkUrl po hs hh hp hq hf hpo,
      rstrip_app_slash]
  · rw [normalize_mkUrl po hs hh hp hq hf hpo, normalize_mkUrl po hs hh hp hqn hfn hpo]
  · rw [normalize_mkUrl (some 80) hs hh hp hq hf (fun x hx => by injection hx with hx; omega),
      normalize_mkUrl none hs hh hp hq hf (fun x hx => Option.noConfusion hx),
      if_pos (Or.inl ⟨hS, rfl⟩), if_neg]
    · rfl
    · rintro (⟨-, hk⟩ | ⟨-, hk⟩) <;> exact Option.noConfusion hk
  · rw [normalize_mkUrl (some 443) hs hh hp hq hf (fun x hx => by injection hx with hx; omega),
      normalize_mkUrl none hs hh hp hq hf (fun x hx => Option.noConfusion hx),
      if_pos (Or.inr ⟨hS, rfl⟩), if_neg]
    · rfl
    · rintro (⟨-, hk⟩ | ⟨-, hk⟩) <;> exact Option.noConfusion hk

/-- Witness for C9 at the concrete pair from the spec scenario:
`http://Example.com:80/A/` and `http://example.com/a`-style variants. -/
theorem claim_C9_witness :
    normalizeList (mkUrl "HTTP".data "Example.com".data (some 80) "/A".data none none) =
      normalizeList (mkUrl (lowStr "HTTP".data) (lowStr "Example.com".data) (some 80)
        "/A".data none none) :=
  (claim_C9 "HTTP".data "Example.com".data "/A".data none none (some 80)
    (by unfold SchemeOk; decide) (by unfold HostOk; decide) (by unfold PathOk; decide)
    (fun l hl => Option.noConfusion hl) (fun l hl => Option.noConfusion hl)
    (fun x hx => by injection hx with hx; omega)).1

theorem lowc_beq_special {d : Char} (hd1 : ¬(65 ≤ d.toNat ∧ d.toNat ≤ 90))
    (hd2 : ¬(97 ≤ d.toNat ∧ d.toNat ≤ 122)) (x : Char) : (lowc x == d) = (x == d) := by
  by_cases hx : x = d
  · subst hx
    rw [lowc_eq_self hd1]
  · have hlx : lowc x ≠ d := fun he => hx ((lowc_eq_iff hd1 hd2).mp he)
    rw [beq_eq_false_iff_ne.mpr hlx, beq_eq_false_iff_ne.mpr hx]

theorem neChar_lowc_special {d : Char} (hd1 : ¬(65 ≤ d.toNat ∧ d.toNat ≤ 90))
    (hd2 : ¬(97 ≤ d.toNat ∧ d.toNat ≤ 122)) (x : Char) : neChar d (lowc x) = neChar d x := by
  simp only [neChar, bne]
  exact congrArg (fun b => !b) (lowc_beq_special hd1 hd2 x)

theorem lowStr_reverse (l : List Char) : (lowStr l).reverse = lowStr l.reverse := by
  rw [lowStr, lowStr, List.map_reverse]

theorem lowStr_length (l : List Char) : (lowStr l).length = l.length := by
  rw [lowStr, List.length_map]

theorem lowStr_append (a b : List Char) : lowStr (a ++ b) = lowStr a ++ lowStr b := by
  rw [lowStr, lowStr, lowStr, List.map_append]

theorem lowStr_drop (n : Nat) (l : List Char) : (lowStr l).drop n = lowStr (l.drop n) := by
  rw [lowStr, lowStr, List.map_drop]

theorem map_takeWhile_ne {d : Char} (hd1 : ¬(65 ≤ d.toNat ∧ d.toNat ≤ 90))
    (hd2 : ¬(97 ≤ d.toNat ∧ d.toNat ≤ 122)) (l : List Char) :
    (lowStr l).takeWhile (neChar d) = lowStr (l.takeWhile (neChar d)) := by
  induction l with
  | nil => rfl
  | cons a t ih =>
    rw [show lowStr (a :: t) = lowc a :: lowStr t from rfl, List.takeWhile_cons,
      neChar_lowc_special hd1 hd2, List.takeWhile_cons]
    by_cases ha : neChar d a = true
    · rw [if_pos ha, if_pos ha, ih]
      rfl
    · rw [if_neg ha, if_neg ha]
      rfl

theorem map_dropWhile_slash (l : List Char) :
    (lowStr l).dropWhile (fun c => c == '/') = lowStr (l.dropWhile (fun c => c == '/')) := by
  induction l with
  | nil => rfl
  | cons a t ih =>
    rw [show lowStr (a :: t) = lowc a :: lowStr t from rfl, List.dropWhile_cons,
      lowc_beq_special (d := '/') (by decide) (by decide), List.dropWhile_cons]
    by_cases ha : (a == '/') = true
    · rw [if_pos ha, if_pos ha, ih]
    · rw [if_neg ha, if_neg ha]
      rfl

theorem lowStr_rstrip (x : List Char) : rstripSlash (lowStr x) = lowStr (rstripSlash x) := by
  rw [rstripSlash, rstripSlash, lowStr_reverse, map_dropWhile_slash, lowStr_reverse]

theorem lowStr_params (p : List Char) :
    splitParamsPath (lowStr p) = lowStr (splitParamsPath p) := by
  have hmem1 : (';' ∈ lowStr p) ↔ (';' ∈ p) := mem_lowStr_special (by decide) (by decide) p
  have hmem2 : ('/' ∈ lowStr p) ↔ ('/' ∈ p) := mem_lowStr_special (by decide) (by decide) p
  by_cases h1 : ';' ∈ p
  · by_cases h2 : '/' ∈ p
    · rw [splitParamsPath, splitParamsPath, if_pos (hmem1.mpr h1), if_pos h1,
        if_pos (hmem2.mpr h2), if_pos h2]
      show ((lowStr p).reverse.drop ((lowStr p).reverse.takeWhile (neChar '/')).length).reverse
          ++ ((lowStr p).reverse.takeWhile (neChar '/')).reverse.takeWhile (neChar ';')
        = lowStr ((p.reverse.drop (p.reverse.takeWhile (neChar '/')).length).reverse
          ++ (p.reverse.takeWhile (neChar '/')).reverse.takeWhile (neChar ';'))
      rw [lowStr_reverse, map_takeWhile_ne (by decide) (by decide), lowStr_length,
        lowStr_drop, lowStr_reverse, lowStr_reverse, map_takeWhile_ne (by decide) (by decide),
        lowStr_append]
    · rw [splitParamsPath, splitParamsPath, if_pos (hmem1.mpr h1), if_pos h1,
        if_neg (fun hc => h2 (hmem2.mp hc)), if_neg h2,
        map_takeWhile_ne (by decide) (by decide)]
  · rw [splitParamsPath, splitParamsPath, if_neg (fun hc => h1 (hmem1.mp hc)), if_neg h1]

theorem pathCanon_of_lowStr {p1 p2 : List Char} (h : lowStr p1 = lowStr p2) :
    lowStr (rstripSlash (splitParamsPath p1)) = lowStr (rstripSlash (splitParamsPath p2)) := by
  have key : ∀ p : List Char, lowStr (rstripSlash (splitParamsPath p)) =
      rstripSlash (splitParamsPath (lowStr p)) := by
    intro p
    rw [lowStr_params, lowStr_rstrip]
  rw [key p1, key p2, h]

/-- Claim C10: `normalize_url` lower-cases the path component, so two URLs
whose parses agree on scheme and netloc and whose paths differ only in ASCII
letter-case produce one identical normalized key. -/
theorem claim_C10 (u1 u2 : List Char) (r1 r2 : SplitRec)
    (h1 : urlsplitModel u1 = some r1) (h2 : urlsplitModel u2 = some r2)
    (hs : r1.scheme = r2.scheme) (hn : r1.netloc = r2.netloc)
    (hp : lowStr r1.path = lowStr r2.path) :
    normalizeList u1 = normalizeList u2 := by
  rw [normalizeList, normalizeList, h1, h2, Option.some_bind, Option.some_bind]
  simp only [normSplit, hs, hn, pathCanon_of_lowStr hp]

/-- Witness for C10 at a concrete path-case pair. -/
theorem claim_C10_witness :
    normalizeList "http://e.com/A/B".data = normalizeList "http://e.com/a/b".data :=
  claim_C10 "http://e.com/A/B".data "http://e.com/a/b".data
    ⟨"http".data, "e.com".data, "/A/B".data, [], []⟩
    ⟨"http".data, "e.com".data, "/a/b".data, [], []⟩
    (by decide) (by decide) rfl rfl (by decide)

theorem takeWhile_headD {p : Char → Bool} {l : List Char} (d : Char)
    (h : l.takeWhile p ≠ []) : (l.takeWhile p).headD d = l.headD d := by
  cases l with
  | nil => rfl
  | cons a t =>
    rw [List.takeWhile_cons] at *
    by_cases hp : p a = true
    · rw [if_pos hp]
      rfl
    · rw [if_neg hp] at h
      exact absurd rfl h

theorem dropWhile_of_takeWhile_nil {p : Char → Bool} {l : List Char}
    (h : l.takeWhile p = []) : l.dropWhile p = l := by
  cases l with
  | nil => rfl
  | cons a t =>
    rw [List.takeWhile_cons] at h
    by_cases hp : p a = true
    · rw [if_pos hp] at h
      exact List.noConfusion h
    · exact List.dropWhile_cons_of_neg hp

theorem takeWhile_pre_of_mem {c0 : Char} :
    ∀ (pre t : List Char), c0 ∈ pre →
      (pre ++ t).takeWhile (neChar c0) = pre.takeWhile (neChar c0) := by
  intro pre
  induction pre with
  | nil => intro t h; exact absurd h (List.not_mem_nil c0)
  | cons a p0 ih =>
    intro t h
    by_cases ha : a = c0
    · subst ha
      rw [List.cons_append, List.takeWhile_cons_of_neg (by simp [neChar]),
        List.takeWhile_cons_of_neg (by simp [neChar])]
    · have hmem : c0 ∈ p0 := by
        rcases List.mem_cons.mp h with he | hm
        · exact absurd he.symm ha
        · exact hm
      rw [List.cons_append, List.takeWhile_cons_of_pos (neChar_true.mpr ha),
        List.takeWhile_cons_of_pos (neChar_true.mpr ha), ih t hmem]

theorem dropWhile_ne_nil_of_mem {c0 : Char} {l : List Char} (h : c0 ∈ l) :
    l.dropWhile (neChar c0) ≠ [] := by
  intro hnil
  have : l.takeWhile (neChar c0) = l := by
    have := List.takeWhile_append_dropWhile (p := neChar c0) (l := l)
    rwa [hnil, List.append_nil] at this
  have := List.mem_takeWhile_imp (l := l) (by rw [this]; exact h)
  exact absurd (neChar_true.mp this) (fun hne => hne rfl)

theorem splitScheme_bad_char {url : List Char}
    (h : ∃ c ∈ url.takeWhile (neChar ':'), isSchemeChar c = false) :
    splitScheme url = ([], url) := by
  rcases hd : url.dropWhile (neChar ':') with _ | ⟨x, xs⟩
  · simp only [splitScheme, hd]
  · simp only [splitScheme, hd]
    rw [if_neg]
    rintro ⟨-, -, hall⟩
    obtain ⟨c, hc, hbad⟩ := h
    rw [List.all_eq_true] at hall
    rw [hall c hc] at hbad
    exact Bool.noConfusion hbad

theorem lowc_not_alpha {c : Char} (h : asciiAlpha c = false) : asciiAlpha (lowc c) = false := by
  by_cases hu : 65 ≤ c.toNat ∧ c.toNat ≤ 90
  · exfalso
    have : asciiAlpha c = true := by
      simp only [asciiAlpha, Bool.or_eq_true, decide_eq_true_eq]
      exact Or.inl hu
    rw [h] at this
    exact Bool.noConfusion this
  · rwa [lowc_eq_self hu]

theorem lowc_not_schemeChar {c : Char} (h : isSchemeChar c = false) :
    isSchemeChar (lowc c) = false := by
  by_cases hu : 65 ≤ c.toNat ∧ c.toNat ≤ 90
  · exfalso
    have : isSchemeChar c = true := (isSchemeChar_iff c).mpr (Or.inl hu)
    rw [h] at this
    exact Bool.noConfusion this
  · rwa [lowc_eq_self hu]

theorem rstrip_headD {p : List Char} (d : Char) (h : rstripSlash p ≠ []) :
    (rstripSlash p).headD d = p.headD d := by
  obtain ⟨k, hk⟩ := rstrip_decomp p
  conv_rhs => rw [hk]
  rw [headD_app d h]

theorem lowStr_headD {l : List Char} (d : Char) (h : l ≠ []) :
    (lowStr l).headD d = lowc (l.headD d) := by
  cases l with
  | nil => exact absurd rfl h
  | cons a t => rfl

theorem lowStr_eq_nil_iff {l : List Char} : lowStr l = [] ↔ l = [] := by
  rw [lowStr]
  exact List.map_eq_nil_iff

theorem take2_iff {P : List Char} : P.take 2 = ['/', '/'] ↔ ∃ t, P = '/' :: '/' :: t := by
  constructor
  · intro h
    rcases P with _ | ⟨a, _ | ⟨b, t⟩⟩
    · exact absurd h (by decide)
    · exact absurd h (by simp)
    · simp only [List.take_succ_cons, List.take_zero] at h
      injection h with h1 h2
      injection h2 with h2 _
      subst h1; subst h2
      exact ⟨t, rfl⟩
  · rintro ⟨t, rfl⟩
    rfl

theorem lowStr_take2 {X : List Char} : (lowStr X).take 2 = ['/', '/'] ↔ X.take 2 = ['/', '/'] := by
  rcases X with _ | ⟨a, _ | ⟨b, t⟩⟩
  · simp [lowStr]
  · constructor
    · intro h
      exact absurd h (by simp [lowStr])
    · intro h
      exact absurd h (by simp)
  · rw [show lowStr (a :: b :: t) = lowc a :: lowc b :: lowStr t from rfl]
    simp only [List.take_succ_cons, List.take_zero, List.cons.injEq, and_true]
    rw [lowc_eq_iff (d := '/') (by decide) (by decide), lowc_eq_iff (d := '/') (by decide)
      (by decide)]

theorem preproc_eq_self {l : List Char} (hhd : l = [] ∨ 32 < (l.headD ' ').toNat)
    (hcl : ∀ c ∈ l, c ≠ '\t' ∧ c ≠ '\r' ∧ c ≠ '\n') : removeUnsafe (stripC0 l) = l := by
  rw [stripC0_eq_self hhd, removeUnsafe_eq_self hcl]

theorem netloc_stop {P₁ : List Char} (hP : P₁ = [] ∨ P₁.headD ' ' = '/') :
    P₁.takeWhile notDelim = [] ∧ P₁.dropWhile notDelim = P₁ := by
  rcases hP with rfl | hh
  · exact ⟨rfl, rfl⟩
  · cases P₁ with
    | nil => exact ⟨rfl, rfl⟩
    | cons a t =>
      rw [List.headD_cons] at hh
      subst hh
      exact ⟨List.takeWhile_cons_of_neg (by decide), List.dropWhile_cons_of_neg (by decide)⟩

theorem urlsplit_canon_full {S N P₁ : List Char}
    (hS : SchemeOk S) (hSl : lowStr S = S)
    (hN : ∀ c ∈ N, notDelim c = true) (hNbr : '[' ∉ N ∧ ']' ∉ N)
    (hP : P₁ = [] ∨ P₁.headD ' ' = '/') (hPq : '?' ∉ P₁) (hPf : '#' ∉ P₁)
    (hcl : ∀ c ∈ S ++ ':' :: '/' :: '/' :: (N ++ P₁), c ≠ '\t' ∧ c ≠ '\r' ∧ c ≠ '\n') :
    urlsplitModel (S ++ ':' :: '/' :: '/' :: (N ++ P₁)) = some ⟨S, N, P₁, [], []⟩ := by
  have hpre : removeUnsafe (stripC0 (S ++ ':' :: '/' :: '/' :: (N ++ P₁))) =
      S ++ ':' :: '/' :: '/' :: (N ++ P₁) := by
    refine preproc_eq_self (Or.inr ?_) hcl
    rw [headD_app _ hS.1]
    have he : S.headD ' ' = S.headD ':' := by
      cases S with
      | nil => exact absurd rfl hS.1
      | cons a t => rfl
    rw [he]
    have := asciiAlpha_toNat hS.2.1
    omega
  have hss : splitScheme (S ++ ':' :: '/' :: '/' :: (N ++ P₁)) =
      (S, '/' :: '/' :: (N ++ P₁)) := by
    rw [splitScheme_app hS, hSl]
  have hns : splitNetloc ('/' :: '/' :: (N ++ P₁)) = (N, P₁) := by
    rw [splitNetloc_cons2, takeWhile_app_all _ hN, dropWhile_app_all _ hN,
      (netloc_stop hP).1, (netloc_stop hP).2, List.append_nil]
  rw [urlsplitModel]
  simp only [hpre, hss, hns, cutAt_not_mem hPf, cutAt_not_mem hPq]
  rw [if_neg]
  rintro (⟨hc, -⟩ | ⟨hc, -⟩)
  · exact hNbr.1 hc
  · exact hNbr.2 hc

theorem urlsplit_canon_rel {N P₁ : List Char}
    (hN : ∀ c ∈ N, notDelim c = true) (hNbr : '[' ∉ N ∧ ']' ∉ N)
    (hP : P₁ = [] ∨ P₁.headD ' ' = '/') (hPq : '?' ∉ P₁) (hPf : '#' ∉ P₁)
    (hcl : ∀ c ∈ '/' :: '/' :: (N ++ P₁), c ≠ '\t' ∧ c ≠ '\r' ∧ c ≠ '\n') :
    urlsplitModel ('/' :: '/' :: (N ++ P₁)) = some ⟨[], N, P₁, [], []⟩ := by
  have hpre : removeUnsafe (stripC0 ('/' :: '/' :: (N ++ P₁))) = '/' :: '/' :: (N ++ P₁) :=
    preproc_eq_self (Or.inr (by rw [List.headD_cons]; decide)) hcl
  have hss : splitScheme ('/' :: '/' :: (N ++ P₁)) = ([], '/' :: '/' :: (N ++ P₁)) :=
    splitScheme_not_alpha (by rw [List.headD_cons]; decide)
  have hns : splitNetloc ('/' :: '/' :: (N ++ P₁)) = (N, P₁) := by
    rw [splitNetloc_cons2, takeWhile_app_all _ hN, dropWhile_app_all _ hN,
      (netloc_stop hP).1, (netloc_stop hP).2, List.append_nil]
  rw [urlsplitModel]
  simp only [hpre, hss, hns, cutAt_not_mem hPf, cutAt_not_mem hPq]
  rw [if_neg]
  rintro (⟨hc, -⟩ | ⟨hc, -⟩)
  · exact hNbr.1 hc
  · exact hNbr.2 hc

theorem urlsplit_canon_scheme {S P₁ : List Char}
    (hS : SchemeOk S) (hSl : lowStr S = S)
    (hP2 : P₁.take 2 ≠ ['/', '/']) (hPq : '?' ∉ P₁) (hPf : '#' ∉ P₁)
    (hcl : ∀ c ∈ S ++ ':' :: P₁, c ≠ '\t' ∧ c ≠ '\r' ∧ c ≠ '\n') :
    urlsplitModel (S ++ ':' :: P₁) = some ⟨S, [], P₁, [], []⟩ := by
  have hpre : removeUnsafe (stripC0 (S ++ ':' :: P₁)) = S ++ ':' :: P₁ := by
    refine preproc_eq_self (Or.inr ?_) hcl
    rw [headD_app _ hS.1]
    have he : S.headD ' ' = S.headD ':' := by
      cases S with
      | nil => exact absurd rfl hS.1
      | cons a t => rfl
    rw [he]
    have := asciiAlpha_toNat hS.2.1
    omega
  have hss : splitScheme (S ++ ':' :: P₁) = (S, P₁) := by
    rw [splitScheme_app hS, hSl]
  have hns : splitNetloc P₁ = ([], P₁) :=
    splitNetloc_not (fun t ht => hP2 (take2_iff.mpr ⟨t, ht⟩))
  rw [urlsplitModel]
  simp only [hpre, hss, hns, cutAt_not_mem hPf, cutAt_not_mem hPq]
  rw [if_neg]
  rintro (⟨hc, -⟩ | ⟨hc, -⟩) <;> exact absurd hc (List.not_mem_nil _)

theorem urlsplit_canon_naked {P₁ : List Char}
    (hnos : splitScheme P₁ = ([], P₁))
    (hhd : P₁ = [] ∨ 32 < (P₁.headD ' ').toNat)
    (hP2 : P₁.take 2 ≠ ['/', '/']) (hPq : '?' ∉ P₁) (hPf : '#' ∉ P₁)
    (hcl : ∀ c ∈ P₁, c ≠ '\t' ∧ c ≠ '\r' ∧ c ≠ '\n') :
    urlsplitModel P₁ = some ⟨[], [], P₁, [], []⟩ := by
  have hpre : removeUnsafe (stripC0 P₁) = P₁ := preproc_eq_self hhd hcl
  have hns : splitNetloc P₁ = ([], P₁) :=
    splitNetloc_not (fun t ht => hP2 (take2_iff.mpr ⟨t, ht⟩))
  rw [urlsplitModel]
  simp only [hpre, hnos, hns, cutAt_not_mem hPf, cutAt_not_mem hPq]
  rw [if_neg]
  rintro (⟨hc, -⟩ | ⟨hc, -⟩) <;> exact absurd hc (List.not_mem_nil _)

theorem lowc_slash : lowc '/' = '/' := by decide

theorem normSplit_canon_noport {S H P₂ : List Char}
    (hSl : lowStr S = S)
    (hH : ∀ c ∈ H, c ≠ ':' ∧ c ≠ '@' ∧ c ≠ '[') (hHl : lowStr H = H)
    (hsemi : ';' ∉ P₂) (hrs : rstripSlash P₂ = P₂) (hPl : lowStr P₂ = P₂) :
    normSplit ⟨S, H, P₂, [], []⟩ = some (unsplitModel S H P₂) := by
  rw [normSplit]
  simp only [hostSplit_noport hH]
  rw [show portOf ([] : List Char) = some none from rfl]
  simp only
  rw [if_neg (by rintro (⟨-, hk⟩ | ⟨-, hk⟩) <;> exact Option.noConfusion hk)]
  rw [splitParams_no hsemi, hrs, hPl, hSl, hHl]

theorem normSplit_canon_port {S H P₂ : List Char} {x : Nat}
    (hSl : lowStr S = S)
    (hH : ∀ c ∈ H, c ≠ ':' ∧ c ≠ '@' ∧ c ≠ '[') (hHl : lowStr H = H)
    (hx0 : x ≠ 0) (hx : x ≤ 65535)
    (hdef : ¬((S = "http".data ∧ x = 80) ∨ (S = "https".data ∧ x = 443)))
    (hsemi : ';' ∉ P₂) (hrs : rstripSlash P₂ = P₂) (hPl : lowStr P₂ = P₂) :
    normSplit ⟨S, H ++ ':' :: digitsOfNat x, P₂, [], []⟩ =
      some (unsplitModel S (H ++ ':' :: digitsOfNat x) P₂) := by
  have hds : ∀ c ∈ digitsOfNat x, c ≠ '@' ∧ c ≠ '[' := by
    intro c hc
    have := asciiDigit_toNat (digitsOfNat_digits c hc)
    exact ⟨ne_of_toNat_ne (by rw [show ('@' : Char).toNat = 64 from rfl]; omega),
      ne_of_toNat_ne (by rw [show ('[' : Char).toNat = 91 from rfl]; omega)⟩
  rw [normSplit]
  simp only [hostSplit_app hH hds, portOf_digits hx]
  rw [if_neg (by
    rw [hSl]
    rintro (⟨h1, hk⟩ | ⟨h1, hk⟩)
    · exact hdef (Or.inl ⟨h1, Option.some.inj hk⟩)
    · exact hdef (Or.inr ⟨h1, Option.some.inj hk⟩))]
  simp only [if_pos hx0]
  rw [splitParams_no hsemi, hrs, hPl, hSl, hHl]

theorem portOf_inv {l : List Char} {x : Nat} (h : portOf l = some (some x)) :
    x ≤ 65535 ∧ l ≠ [] := by
  by_cases h0 : l = []
  · rw [portOf, if_pos h0] at h
    exact absurd (Option.some.inj h) (by simp)
  · rw [portOf, if_neg h0] at h
    by_cases h1 : l.all asciiDigit
    · rw [if_pos h1] at h
      by_cases h2 : digitsVal l ≤ 65535
      · rw [if_pos h2] at h
        have := Option.some.inj h
        injection this with h3
        rw [← h3]
        exact ⟨h2, h0⟩
      · rw [if_neg h2] at h
        exact Option.noConfusion h
    · rw [if_neg h1] at h
      exact Option.noConfusion h

theorem hostSplit_unbr {nl : List Char} (hbr : '[' ∉ nl) :
    hostSplit nl = (((nl.reverse.takeWhile (neChar '@')).reverse).takeWhile (neChar ':'),
      (((nl.reverse.takeWhile (neChar '@')).reverse).dropWhile (neChar ':')).drop 1) := by
  have hsub : ∀ c ∈ (nl.reverse.takeWhile (neChar '@')).reverse, c ∈ nl := by
    intro c hc
    rw [List.mem_reverse] at hc
    have := List.takeWhile_subset (l := nl.reverse) (neChar '@') hc
    rwa [List.mem_reverse] at this
  rw [hostSplit]
  simp only
  rw [if_neg (fun hm => hbr (hsub '[' hm))]

theorem dropWhile_length_le (p : Char → Bool) (l : List Char) :
    (l.dropWhile p).length ≤ l.length := by
  induction l with
  | nil => exact le_refl 0
  | cons a t ih =>
    by_cases ha : p a = true
    · rw [List.dropWhile_cons_of_pos ha]
      exact Nat.le_succ_of_le ih
    · rw [List.dropWhile_cons_of_neg ha]

theorem rstrip_cons_fix {P : List Char} (c : Char) (h : rstripSlash P = P) (hne : P ≠ []) :
    rstripSlash (c :: P) = c :: P := by
  have h' : P.reverse.dropWhile (fun c => c == '/') = P.reverse := by
    have := congrArg List.reverse h
    rwa [rstripSlash, List.reverse_reverse] at this
  rcases he : P.reverse with _ | ⟨x, xs⟩
  · exact absurd (by rw [← List.reverse_reverse P, he]; rfl) hne
  · rw [he] at h'
    have hx : (x == '/') = false := by
      by_contra hb
      have hb' : (x == '/') = true := by
        cases hxx : (x == '/') with
        | false => exact absurd hxx hb
        | true => rfl
      rw [show List.dropWhile (fun c => c == '/') (x :: xs)
          = List.dropWhile (fun c => c == '/') xs from List.dropWhile_cons_of_pos hb'] at h'
      have hlen := congrArg List.length h'
      have := dropWhile_length_le (fun c => c == '/') xs
      simp only [List.length_cons] at hlen
      omega
    rw [rstripSlash, List.reverse_cons, he]
    rw [List.cons_append, List.dropWhile_cons_of_neg (by rw [hx]; exact Bool.false_ne_true)]
    calc (x :: (xs ++ [c])).reverse = ((x :: xs) ++ [c]).reverse := by rw [List.cons_append]
      _ = [c].reverse ++ (x :: xs).reverse := by rw [List.reverse_append]
      _ = c :: P := by rw [← he, List.reverse_reverse]; rfl

theorem splitScheme_nil : splitScheme [] = ([], []) := rfl

theorem splitScheme_fail {url : List Char} (hd : url.dropWhile (neChar ':') ≠ [])
    (h : splitScheme url = ([], url)) :
    ¬(0 < (url.takeWhile (neChar ':')).length ∧ asciiAlpha (url.headD ':') = true ∧
      (url.takeWhile (neChar ':')).all isSchemeChar = true) := by
  rcases he : url.dropWhile (neChar ':') with _ | ⟨x, xs⟩
  · exact absurd he hd
  · intro hcond
    rw [splitScheme] at h
    simp only [he, if_pos hcond] at h
    have h1 : lowStr (url.takeWhile (neChar ':')) = [] := congrArg Prod.fst h
    rw [lowStr_eq_nil_iff] at h1
    rw [h1] at hcond
    exact absurd hcond.1 (by simp)

theorem lowc_clean {c : Char} (h : c ≠ '\t' ∧ c ≠ '\r' ∧ c ≠ '\n') :
    lowc c ≠ '\t' ∧ lowc c ≠ '\r' ∧ lowc c ≠ '\n' := by
  by_cases hu : 65 ≤ c.toNat ∧ c.toNat ≤ 90
  · have := lowc_toNat hu
    exact ⟨ne_of_toNat_ne (by rw [show ('\t' : Char).toNat = 9 from rfl]; omega),
      ne_of_toNat_ne (by rw [show ('\r' : Char).toNat = 13 from rfl]; omega),
      ne_of_toNat_ne (by rw [show ('\n' : Char).toNat = 10 from rfl]; omega)⟩
  · rwa [lowc_eq_self hu]

theorem mem_removeUnsafe_clean {l : List Char} {c : Char} (h : c ∈ removeUnsafe l) :
    c ≠ '\t' ∧ c ≠ '\r' ∧ c ≠ '\n' := by
  rw [removeUnsafe] at h
  have := (List.mem_filter.mp h).2
  simp only [Bool.not_eq_true', Bool.or_eq_false_iff, beq_eq_false_iff_ne] at this
  exact ⟨this.1.1, this.1.2, this.2⟩

theorem preproc_head (l : List Char) :
    removeUnsafe (stripC0 l) = [] ∨ 32 < ((removeUnsafe (stripC0 l)).headD ' ').toNat := by
  rcases he : stripC0 l with _ | ⟨x, xs⟩
  · left
    rfl
  · have hdw : l.dropWhile (fun c => decide (c.toNat ≤ 32)) = x :: xs := he
    have hx : ¬(x.toNat ≤ 32) := by
      have := dropWhile_head_false hdw
      simpa using this
    right
    rw [removeUnsafe, List.filter_cons_of_pos (by
      have h3 := gt32_not_unsafe (c := x) (by omega)
      simp [h3.1, h3.2.1, h3.2.2])]
    rw [List.headD_cons]
    omega

theorem unsplitModel_eq (scheme netloc path : List Char) :
    unsplitModel scheme netloc path =
      if scheme ≠ [] then
        scheme ++ ':' ::
          (if netloc ≠ [] ∨ (scheme ≠ [] ∧ scheme ∈ usesNetloc ∧ path.take 2 ≠ ['/', '/']) then
            '/' :: '/' ::
              (netloc ++ (if path ≠ [] ∧ path.take 1 ≠ ['/'] then '/' :: path else path))
          else path)
      else
        (if netloc ≠ [] ∨ (scheme ≠ [] ∧ scheme ∈ usesNetloc ∧ path.take 2 ≠ ['/', '/']) then
          '/' :: '/' ::
            (netloc ++ (if path ≠ [] ∧ path.take 1 ≠ ['/'] then '/' :: path else path))
        else path) := rfl

theorem schemeOk_clean {S : List Char} (h : SchemeOk S) :
    ∀ c ∈ S, c ≠ '\t' ∧ c ≠ '\r' ∧ c ≠ '\n' := by
  intro c hc
  have hall := h.2.2
  rw [List.all_eq_true] at hall
  have := (isSchemeChar_iff c).mp (hall c hc)
  exact ⟨ne_of_toNat_ne (by rw [show ('\t' : Char).toNat = 9 from rfl]; omega),
    ne_of_toNat_ne (by rw [show ('\r' : Char).toNat = 13 from rfl]; omega),
    ne_of_toNat_ne (by rw [show ('\n' : Char).toNat = 10 from rfl]; omega)⟩

theorem normalize_canon (S N P : List Char)
    (hSalt : S = [] ∨ (SchemeOk S ∧ lowStr S = S))
    (hN : ∀ c ∈ N, notDelim c = true ∧ c ≠ '[' ∧ c ≠ ']' ∧ c ≠ '\t' ∧ c ≠ '\r' ∧ c ≠ '\n')
    (hP : ∀ c ∈ P, c ≠ '?' ∧ c ≠ '#' ∧ c ≠ ';' ∧ c ≠ '\t' ∧ c ≠ '\r' ∧ c ≠ '\n')
    (hPrs : rstripSlash P = P) (hPl : lowStr P = P)
    (hPshape : N ≠ [] → P = [] ∨ P.headD ' ' = '/')
    (hPhd : S = [] → P = [] ∨ 32 < (P.headD ' ').toNat)
    (hP2 : N = [] → P.take 2 ≠ ['/', '/'])
    (hnos : S = [] → N = [] → P.take 2 ≠ ['/', '/'] → splitScheme P = ([], P))
    (hnorm : ∀ P₂, ';' ∉ P₂ → rstripSlash P₂ = P₂ → lowStr P₂ = P₂ →
      normSplit ⟨S, N, P₂, [], []⟩ = some (unsplitModel S N P₂)) :
    normalizeList (unsplitModel S N P) = some (unsplitModel S N P) := by
  have hPcl : ∀ c ∈ P, c ≠ '\t' ∧ c ≠ '\r' ∧ c ≠ '\n' := fun c hc => (hP c hc).2.2.2
  have hPq : '?' ∉ P := fun hm => (hP _ hm).1 rfl
  have hPf : '#' ∉ P := fun hm => (hP _ hm).2.1 rfl
  have hsemi : ';' ∉ P := fun hm => (hP _ hm).2.2.1 rfl
  have hN' : ∀ c ∈ N, notDelim c = true := fun c hc => (hN c hc).1
  have hNbr : '[' ∉ N ∧ ']' ∉ N :=
    ⟨fun hm => (hN _ hm).2.1 rfl, fun hm => (hN _ hm).2.2.1 rfl⟩
  have hNcl : ∀ c ∈ N, c ≠ '\t' ∧ c ≠ '\r' ∧ c ≠ '\n' := fun c hc => (hN c hc).2.2.2
  by_cases hcond : N ≠ [] ∨ (S ≠ [] ∧ S ∈ usesNetloc ∧ P.take 2 ≠ ['/', '/'])
  · by_cases hslash : P ≠ [] ∧ P.take 1 ≠ ['/']
    · -- an extra slash is inserted in front of the relative path
      obtain ⟨hPne, hPt1⟩ := hslash
      have hNnil : N = [] := by
        by_contra hNne
        rcases hPshape hNne with h0 | hhd
        · exact hPne h0
        · apply hPt1
          cases P with
          | nil => exact absurd rfl hPne
          | cons a t =>
            rw [List.headD_cons] at hhd
            subst hhd
            rfl
      subst hNnil
      rcases hcond with hc1 | ⟨hSne, hSuse, hSt2⟩
      · exact absurd rfl hc1
      rcases hSalt with hS0 | ⟨hSok, hSl⟩
      · exact absurd hS0 hSne
      have hScl := schemeOk_clean hSok
      have hV : unsplitModel S [] P = S ++ ':' :: '/' :: '/' :: ([] ++ '/' :: P) := by
        rw [unsplitModel_eq, if_pos hSne, if_pos (Or.inr ⟨hSne, hSuse, hSt2⟩),
          if_pos (show P ≠ [] ∧ P.take 1 ≠ ['/'] from ⟨hPne, hPt1⟩)]
      have hcl : ∀ c ∈ S ++ ':' :: '/' :: '/' :: ([] ++ '/' :: P),
          c ≠ '\t' ∧ c ≠ '\r' ∧ c ≠ '\n' := by
        intro c hc
        rcases List.mem_append.mp hc with h | h
        · exact hScl c h
        · rcases List.mem_cons.mp h with rfl | h
          · decide
          · rcases List.mem_cons.mp h with rfl | h
            · decide
            · rcases List.mem_cons.mp h with rfl | h
              · decide
              · rcases List.mem_append.mp h with h | h
                · exact absurd h (List.not_mem_nil c)
                · rcases List.mem_cons.mp h with rfl | h
                  · decide
                  · exact hPcl c h
      have hPq2 : '?' ∉ ('/' :: P) := by
        intro hm
        rcases List.mem_cons.mp hm with h | h
        · exact absurd h (by decide)
        · exact (hP _ h).1 rfl
      have hPf2 : '#' ∉ ('/' :: P) := by
        intro hm
        rcases List.mem_cons.mp hm with h | h
        · exact absurd h (by decide)
        · exact (hP _ h).2.1 rfl
      have hsemi2 : ';' ∉ ('/' :: P) := by
        intro hm
        rcases List.mem_cons.mp hm with h | h
        · exact absurd h (by decide)
        · exact (hP _ h).2.2.1 rfl
      have hsplit := @urlsplit_canon_full S [] ('/' :: P)
        hSok hSl (fun c hc => absurd hc (List.not_mem_nil c))
        ⟨List.not_mem_nil _, List.not_mem_nil _⟩ (Or.inr rfl) hPq2 hPf2 hcl
      have hrs2 : rstripSlash ('/' :: P) = '/' :: P := rstrip_cons_fix '/' hPrs hPne
      have hpl2 : lowStr ('/' :: P) = '/' :: P := by
        rw [show lowStr ('/' :: P) = lowc '/' :: lowStr P from rfl, lowc_slash, hPl]
      have ht2 : ('/' :: P).take 2 ≠ ['/', '/'] := by
        intro h
        simp only [List.take_succ_cons] at h
        injection h with h1 h2
        exact hPt1 h2
      have hsl2 : ¬(('/' :: P) ≠ [] ∧ ('/' :: P).take 1 ≠ ['/']) := by
        rintro ⟨-, h2⟩
        exact h2 rfl
      have hV2 : unsplitModel S [] ('/' :: P) = S ++ ':' :: '/' :: '/' :: ([] ++ '/' :: P) := by
        rw [unsplitModel_eq, if_pos hSne, if_pos (Or.inr ⟨hSne, hSuse, ht2⟩), if_neg hsl2]
      rw [hV, normalizeList, hsplit, Option.some_bind, hnorm ('/' :: P) hsemi2 hrs2 hpl2, hV2]
    · -- the path is kept as is
      have hPsh : P = [] ∨ P.headD ' ' = '/' := by
        by_cases hPe : P = []
        · exact Or.inl hPe
        · right
          have ht1 : P.take 1 = ['/'] := by
            by_contra ht
            exact hslash ⟨hPe, ht⟩
          cases P with
          | nil => exact absurd rfl hPe
          | cons a t =>
            simp only [List.take_succ_cons, List.take_zero] at ht1
            injection ht1 with h1 h2
      by_cases hS : S = []
      · subst hS
        have hNne : N ≠ [] := by
          rcases hcond with h | ⟨hSne, -, -⟩
          · exact h
          · exact absurd rfl hSne
        have hV : unsplitModel [] N P = '/' :: '/' :: (N ++ P) := by
          rw [unsplitModel_eq, if_neg (fun h => h rfl), if_pos hcond, if_neg hslash]
        have hcl : ∀ c ∈ '/' :: '/' :: (N ++ P), c ≠ '\t' ∧ c ≠ '\r' ∧ c ≠ '\n' := by
          intro c hc
          rcases List.mem_cons.mp hc with rfl | h
          · decide
          · rcases List.mem_cons.mp h with rfl | h
            · decide
            · rcases List.mem_append.mp h with h | h
              · exact hNcl c h
              · exact hPcl c h
        have hsplit := @urlsplit_canon_rel N P hN' hNbr hPsh hPq hPf hcl
        rw [hV, normalizeList, hsplit, Option.some_bind, hnorm P hsemi hPrs hPl, hV]
      · rcases hSalt with hS0 | ⟨hSok, hSl⟩
        · exact absurd hS0 hS
        have hScl := schemeOk_clean hSok
        have hV : unsplitModel S N P = S ++ ':' :: '/' :: '/' :: (N ++ P) := by
          rw [unsplitModel_eq, if_pos hS, if_pos hcond, if_neg hslash]
        have hcl : ∀ c ∈ S ++ ':' :: '/' :: '/' :: (N ++ P),
            c ≠ '\t' ∧ c ≠ '\r' ∧ c ≠ '\n' := by
          intro c hc
          rcases List.mem_append.mp hc with h | h
          · exact hScl c h
          · rcases List.mem_cons.mp h with rfl | h
            · decide
            · rcases List.mem_cons.mp h with rfl | h
              · decide
              · rcases List.mem_cons.mp h with rfl | h
                · decide
                · rcases List.mem_append.mp h with h | h
                  · exact hNcl c h
                  · exact hPcl c h
        have hsplit := @urlsplit_canon_full S N P
          hSok hSl hN' hNbr hPsh hPq hPf hcl
        rw [hV, normalizeList, hsplit, Option.some_bind, hnorm P hsemi hPrs hPl, hV]
  · -- no netloc is re-attached: the unsplit output is scheme:path or the bare path
    have hN0 : N = [] := by
      by_contra h
      exact hcond (Or.inl h)
    subst hN0
    by_cases hS : S = []
    · subst hS
      have hV : unsplitModel [] [] P = P := by
        rw [unsplitModel_eq, if_neg (fun h => h rfl), if_neg hcond]
      have hsplit := @urlsplit_canon_naked P
        (hnos rfl rfl (hP2 rfl)) (hPhd rfl) (hP2 rfl) hPq hPf hPcl
      rw [hV, normalizeList, hsplit, Option.some_bind, hnorm P hsemi hPrs hPl, hV]
    · rcases hSalt with hS0 | ⟨hSok, hSl⟩
      · exact absurd hS0 hS
      have hScl := schemeOk_clean hSok
      have hV : unsplitModel S [] P = S ++ ':' :: P := by
        rw [unsplitModel_eq, if_pos hS, if_neg hcond]
      have hcl : ∀ c ∈ S ++ ':' :: P, c ≠ '\t' ∧ c ≠ '\r' ∧ c ≠ '\n' := by
        intro c hc
        rcases List.mem_append.mp hc with h | h
        · exact hScl c h
        · rcases List.mem_cons.mp h with rfl | h
          · decide
          · exact hPcl c h
      have hsplit := @urlsplit_canon_scheme S P
        hSok hSl (hP2 rfl) hPq hPf hcl
      rw [hV, normalizeList, hsplit, Option.some_bind, hnorm P hsemi hPrs hPl, hV]

theorem notDelim_false {z : Char} (h : notDelim z = false) : z = '/' ∨ z = '?' ∨ z = '#' := by
  by_contra hc
  push_neg at hc
  rw [notDelim_iff.mpr ⟨hc.1, hc.2.1, hc.2.2⟩] at h
  exact Bool.noConfusion h

theorem mem_lowStr_of {L : List Char} {c : Char} (h : c ∈ lowStr L) : ∃ y ∈ L, c = lowc y := by
  rw [lowStr, List.mem_map] at h
  obtain ⟨y, hy, he⟩ := h
  exact ⟨y, hy, he.symm⟩

theorem lowc_ne_special {y d : Char} (hd1 : ¬(65 ≤ d.toNat ∧ d.toNat ≤ 90))
    (hd2 : ¬(97 ≤ d.toNat ∧ d.toNat ≤ 122)) (h : y ≠ d) : lowc y ≠ d :=
  fun he => h ((lowc_eq_iff hd1 hd2).mp he)

theorem scheme_alt (U : List Char) :
    ((splitScheme U).1 = [] ∧ (splitScheme U).2 = U) ∨
    (SchemeOk (splitScheme U).1 ∧ lowStr (splitScheme U).1 = (splitScheme U).1) := by
  rcases splitScheme_spec U with ⟨h1, h2⟩ | ⟨raw, hok, h1, h2⟩
  · exact Or.inl ⟨h1, h2⟩
  · right
    rw [h1]
    exact ⟨SchemeOk_lowStr hok, lowStr_lowStr raw⟩

theorem splitparts_sub (U : List Char) :
    (∀ c ∈ (splitNetloc (splitScheme U).2).1, c ∈ U ∧ notDelim c = true) ∧
    (∀ c ∈ (splitNetloc (splitScheme U).2).2, c ∈ U) := by
  have hXU : ∀ c ∈ (splitScheme U).2, c ∈ U := by
    rcases splitScheme_spec U with ⟨-, h2⟩ | ⟨raw, -, -, h2⟩
    · rw [h2]
      exact fun c h => h
    · intro c hc
      rw [h2]
      exact List.mem_append.mpr (Or.inr (List.mem_cons.mpr (Or.inr hc)))
  rcases splitNetloc_spec (splitScheme U).2 with ⟨h1, h2, -⟩ | ⟨t, ht, h1, h2⟩
  · constructor
    · intro c hc
      rw [h1] at hc
      exact absurd hc (List.not_mem_nil c)
    · intro c hc
      rw [h2] at hc
      exact hXU c hc
  · have htU : ∀ c ∈ t, c ∈ U := fun c hc =>
      hXU c (by rw [ht]; exact List.mem_cons.mpr (Or.inr (List.mem_cons.mpr (Or.inr hc))))
    constructor
    · intro c hc
      rw [h1] at hc
      exact ⟨htU c (List.takeWhile_subset _ hc), List.mem_takeWhile_imp hc⟩
    · intro c hc
      rw [h2] at hc
      exact htU c (List.dropWhile_subset _ hc)

theorem host_chars {nl : List Char} {c : Char} (hbr : '[' ∉ nl)
    (h : c ∈ (hostSplit nl).1) : c ∈ nl ∧ c ≠ ':' ∧ c ≠ '@' := by
  rw [hostSplit_unbr hbr] at h
  have h2 : c ∈ (nl.reverse.takeWhile (neChar '@')).reverse := List.takeWhile_subset _ h
  have hc1 : c ≠ ':' := neChar_true.mp (List.mem_takeWhile_imp h)
  rw [List.mem_reverse] at h2
  have hc2 : c ≠ '@' := neChar_true.mp (List.mem_takeWhile_imp h2)
  have h3 : c ∈ nl := by
    have := List.takeWhile_subset (l := nl.reverse) (neChar '@') h2
    rwa [List.mem_reverse] at this
  exact ⟨h3, hc1, hc2⟩

theorem pa_shape_dd (t : List Char) :
    ((t.dropWhile notDelim).takeWhile (neChar '#')).takeWhile (neChar '?') = [] ∨
    ∃ w, ((t.dropWhile notDelim).takeWhile (neChar '#')).takeWhile (neChar '?') = '/' :: w := by
  rcases hn : t.dropWhile notDelim with _ | ⟨z, zs⟩
  · left
    rfl
  · have hz := dropWhile_head_false hn
    rcases notDelim_false hz with rfl | rfl | rfl
    · right
      rw [List.takeWhile_cons_of_pos (by decide), List.takeWhile_cons_of_pos (by decide)]
      exact ⟨_, rfl⟩
    · left
      rw [List.takeWhile_cons_of_pos (by decide), List.takeWhile_cons_of_neg (by decide)]
    · left
      rw [List.takeWhile_cons_of_neg (by decide)]
      rfl

theorem P_shape_slash {pa w : List Char} (h : pa = '/' :: w) :
    lowStr (rstripSlash pa) = [] ∨ (lowStr (rstripSlash pa)).headD ' ' = '/' := by
  by_cases hY : rstripSlash pa = []
  · left
    rw [hY]
    rfl
  · right
    rw [lowStr_headD ' ' hY, rstrip_headD ' ' hY, h, List.headD_cons]
    exact lowc_slash

theorem head_lift {L : List Char} (hgt : L = [] ∨ 32 < (L.headD ' ').toNat)
    {pa : List Char} (hpa : pa = (L.takeWhile (neChar '#')).takeWhile (neChar '?')) :
    lowStr (rstripSlash pa) = [] ∨ 32 < ((lowStr (rstripSlash pa)).headD ' ').toNat := by
  subst hpa
  by_cases hY : rstripSlash ((L.takeWhile (neChar '#')).takeWhile (neChar '?')) = []
  · left
    rw [hY]
    rfl
  · right
    have hpane : (L.takeWhile (neChar '#')).takeWhile (neChar '?') ≠ [] := by
      intro h0
      exact hY (by rw [h0]; rfl)
    have h1 : L.takeWhile (neChar '#') ≠ [] := by
      intro h0
      exact hpane (by rw [h0]; rfl)
    have hLne : L ≠ [] := by
      intro h0
      exact h1 (by rw [h0]; rfl)
    rcases hgt with h0 | hgt
    · exact absurd h0 hLne
    rw [lowStr_headD ' ' hY, rstrip_headD ' ' hY, takeWhile_headD ' ' hpane,
      takeWhile_headD ' ' h1]
    exact lowc_toNat_le _ hgt

theorem dd_head_gt32 (t : List Char) :
    t.dropWhile notDelim = [] ∨ 32 < ((t.dropWhile notDelim).headD ' ').toNat := by
  rcases hn : t.dropWhile notDelim with _ | ⟨z, zs⟩
  · exact Or.inl rfl
  · right
    have hz := dropWhile_head_false hn
    rw [List.headD_cons]
    rcases notDelim_false hz with rfl | rfl | rfl <;> decide

theorem pa_prefix (L : List Char) :
    ∃ rest, L = ((L.takeWhile (neChar '#')).takeWhile (neChar '?')) ++ rest := by
  refine ⟨((L.takeWhile (neChar '#')).dropWhile (neChar '?')) ++ L.dropWhile (neChar '#'), ?_⟩
  rw [← List.append_assoc, List.takeWhile_append_dropWhile, List.takeWhile_append_dropWhile]

theorem noscheme_path {U pa P : List Char} (hsch : splitScheme U = ([], U))
    (hpa : pa = (U.takeWhile (neChar '#')).takeWhile (neChar '?'))
    (hP : P = lowStr (rstripSlash pa)) :
    splitScheme P = ([], P) := by
  subst hP
  subst hpa
  by_cases hcol : ':' ∈ lowStr (rstripSlash ((U.takeWhile (neChar '#')).takeWhile (neChar '?')))
  · have hcolY : ':' ∈ rstripSlash ((U.takeWhile (neChar '#')).takeWhile (neChar '?')) := by
      obtain ⟨y, hy, he⟩ := mem_lowStr_of hcol
      have hye : y = ':' := (lowc_eq_iff (by decide) (by decide)).mp he.symm
      rwa [← hye]
    have hcolpa : ':' ∈ (U.takeWhile (neChar '#')).takeWhile (neChar '?') := mem_rstrip hcolY
    have hcolX1 : ':' ∈ U.takeWhile (neChar '#') := List.takeWhile_subset _ hcolpa
    have hcolU : ':' ∈ U := List.takeWhile_subset _ hcolX1
    have hdne : U.dropWhile (neChar ':') ≠ [] := dropWhile_ne_nil_of_mem hcolU
    have hfail := splitScheme_fail hdne hsch
    have hYne : rstripSlash ((U.takeWhile (neChar '#')).takeWhile (neChar '?')) ≠ [] := by
      intro h0
      rw [h0] at hcolY
      exact absurd hcolY (List.not_mem_nil _)
    have hpane : (U.takeWhile (neChar '#')).takeWhile (neChar '?') ≠ [] := by
      intro h0
      rw [h0] at hcolpa
      exact absurd hcolpa (List.not_mem_nil _)
    have hX1ne : U.takeWhile (neChar '#') ≠ [] := by
      intro h0
      rw [h0] at hcolX1
      exact absurd hcolX1 (List.not_mem_nil _)
    have hheads :
        (lowStr (rstripSlash ((U.takeWhile (neChar '#')).takeWhile (neChar '?')))).headD ':'
          = lowc (U.headD ':') := by
      rw [lowStr_headD ':' hYne, rstrip_headD ':' hYne, takeWhile_headD ':' hpane,
        takeWhile_headD ':' hX1ne]
    by_cases hb1 : U.takeWhile (neChar ':') = []
    · have hUhd : U.headD ':' = ':' := by
        cases U with
        | nil => rfl
        | cons a t =>
          rw [List.takeWhile_cons] at hb1
          by_cases ha : neChar ':' a = true
          · rw [if_pos ha] at hb1
            exact List.noConfusion hb1
          · have hf : neChar ':' a = false := by rwa [Bool.not_eq_true] at ha
            rw [List.headD_cons]
            exact neChar_false.mp hf
      apply splitScheme_not_alpha
      rw [hheads, hUhd]
      decide
    · by_cases hb2 : asciiAlpha (U.headD ':') = true
      · have hnall : ¬((U.takeWhile (neChar ':')).all isSchemeChar = true) := by
          intro hall
          exact hfail ⟨List.length_pos.mpr hb1, hb2, hall⟩
        obtain ⟨c, hcmem, hcbad⟩ : ∃ c ∈ U.takeWhile (neChar ':'), isSchemeChar c = false := by
          by_contra hno
          push_neg at hno
          apply hnall
          rw [List.all_eq_true]
          intro x hx
          have hxne := hno x hx
          cases hxx : isSchemeChar x with
          | false => exact absurd hxx hxne
          | true => rfl
        have hprefix : U.takeWhile (neChar ':') =
            (rstripSlash ((U.takeWhile (neChar '#')).takeWhile (neChar '?'))).takeWhile
              (neChar ':') := by
          obtain ⟨rest, hUeq⟩ := pa_prefix U
          obtain ⟨k, hk⟩ := rstrip_decomp ((U.takeWhile (neChar '#')).takeWhile (neChar '?'))
          conv_lhs => rw [hUeq, hk]
          rw [List.append_assoc, takeWhile_pre_of_mem _ _ hcolY]
        have hPtake :
            (lowStr (rstripSlash ((U.takeWhile (neChar '#')).takeWhile
              (neChar '?')))).takeWhile (neChar ':') = lowStr (U.takeWhile (neChar ':')) := by
          rw [map_takeWhile_ne (by decide) (by decide), ← hprefix]
        apply splitScheme_bad_char
        rw [hPtake]
        exact ⟨lowc c, by rw [lowStr]; exact List.mem_map.mpr ⟨c, hcmem, rfl⟩,
          lowc_not_schemeChar hcbad⟩
      · have hb2' : asciiAlpha (U.headD ':') = false := by rwa [Bool.not_eq_true] at hb2
        apply splitScheme_not_alpha
        rw [hheads]
        exact lowc_not_alpha hb2'
  · exact splitScheme_no_colon hcol

/-- Claim C8 (amended): `normalize_url` is idempotent on every URL string on
which it is defined, whose netloc contains no square bracket, whose parsed path
contains no semicolon, and which does not combine an empty hostname with a
path whose slash-stripped form starts with `//`: normalizing the produced key
again returns the same key. -/
theorem claim_C8 (u v : String) (r : SplitRec)
    (hr : urlsplitModel u.data = some r)
    (hbr1 : '[' ∉ r.netloc) (hbr2 : ']' ∉ r.netloc)
    (hsemi : ';' ∉ r.path)
    (hshape : (hostSplit r.netloc).1 ≠ [] ∨ (rstripSlash r.path).take 2 ≠ ['/', '/'])
    (hv : normalize_url u = some v) :
    normalize_url v = some v := by
  obtain ⟨sc, nl, pa, qu, fr⟩ := r
  dsimp only at hbr1 hbr2 hsemi hshape
  rw [normalize_url] at hv
  obtain ⟨l, hl, hlv⟩ := Option.map_eq_some'.mp hv
  subst hlv
  have hns : normSplit ⟨sc, nl, pa, qu, fr⟩ = some l := by
    rw [normalizeList, hr, Option.some_bind] at hl
    exact hl
  rw [normalize_url]
  show (normalizeList l).map List.asString = some (List.asString l)
  simp only [urlsplitModel, cutAt] at hr
  split at hr
  · exact Option.noConfusion hr
  · injection hr with hr1
    injection hr1 with hsc hnl hpa hqu hfr
    set U := removeUnsafe (stripC0 u.data) with hU
    have hUsub := splitparts_sub U
    have hSalt : lowStr sc = [] ∨
        (SchemeOk (lowStr sc) ∧ lowStr (lowStr sc) = lowStr sc) := by
      rcases scheme_alt U with ⟨h1, -⟩ | ⟨hok, hls⟩
      · left
        rw [hsc] at h1
        rw [h1]
        rfl
      · right
        rw [hsc] at hok hls
        rw [hls]
        exact ⟨hok, hls⟩
    have hHprop : ∀ c ∈ lowStr (hostSplit nl).1, c ≠ ':' ∧ c ≠ '@' ∧ c ≠ '[' := by
      intro c hc
      obtain ⟨y, hy, rfl⟩ := mem_lowStr_of hc
      obtain ⟨hynl, hy1, hy2⟩ := host_chars hbr1 hy
      exact ⟨lowc_ne_special (by decide) (by decide) hy1,
        lowc_ne_special (by decide) (by decide) hy2,
        lowc_ne_special (by decide) (by decide) (fun he => hbr1 (he ▸ hynl))⟩
    have hHfull : ∀ c ∈ lowStr (hostSplit nl).1,
        notDelim c = true ∧ c ≠ '[' ∧ c ≠ ']' ∧ c ≠ '\t' ∧ c ≠ '\r' ∧ c ≠ '\n' := by
      intro c hc
      obtain ⟨y, hy, rfl⟩ := mem_lowStr_of hc
      obtain ⟨hynl, -, -⟩ := host_chars hbr1 hy
      have hyU : y ∈ U := (hUsub.1 y (by rw [hnl]; exact hynl)).1
      have hnd : notDelim y = true := (hUsub.1 y (by rw [hnl]; exact hynl)).2
      have hycl : y ≠ '\t' ∧ y ≠ '\r' ∧ y ≠ '\n' := by
        rw [hU] at hyU
        exact mem_removeUnsafe_clean hyU
      rw [notDelim_iff] at hnd
      refine ⟨notDelim_iff.mpr ⟨lowc_ne_special (by decide) (by decide) hnd.1,
        lowc_ne_special (by decide) (by decide) hnd.2.1,
        lowc_ne_special (by decide) (by decide) hnd.2.2⟩,
        lowc_ne_special (by decide) (by decide) (fun he => hbr1 (he ▸ hynl)),
        lowc_ne_special (by decide) (by decide) (fun he => hbr2 (he ▸ hynl)),
        (lowc_clean hycl).1, (lowc_clean hycl).2.1, (lowc_clean hycl).2.2⟩
    have hPfull : ∀ c ∈ lowStr (rstripSlash pa),
        c ≠ '?' ∧ c ≠ '#' ∧ c ≠ ';' ∧ c ≠ '\t' ∧ c ≠ '\r' ∧ c ≠ '\n' := by
      intro c hc
      obtain ⟨y, hy, rfl⟩ := mem_lowStr_of hc
      have hypa : y ∈ pa := mem_rstrip hy
      have hypa' : y ∈ ((splitNetloc (splitScheme U).2).2.takeWhile
          (neChar '#')).takeWhile (neChar '?') := by
        rw [hpa]
        exact hypa
      have hyq : y ≠ '?' := neChar_true.mp (List.mem_takeWhile_imp hypa')
      have hyX1 : y ∈ (splitNetloc (splitScheme U).2).2.takeWhile (neChar '#') :=
        List.takeWhile_subset _ hypa'
      have hyh : y ≠ '#' := neChar_true.mp (List.mem_takeWhile_imp hyX1)
      have hyn2 : y ∈ (splitNetloc (splitScheme U).2).2 := List.takeWhile_subset _ hyX1
      have hyU : y ∈ U := hUsub.2 y hyn2
      have hycl : y ≠ '\t' ∧ y ≠ '\r' ∧ y ≠ '\n' := by
        rw [hU] at hyU
        exact mem_removeUnsafe_clean hyU
      have hysemi : y ≠ ';' := fun he => hsemi (he ▸ hypa)
      exact ⟨lowc_ne_special (by decide) (by decide) hyq,
        lowc_ne_special (by decide) (by decide) hyh,
        lowc_ne_special (by decide) (by decide) hysemi,
        (lowc_clean hycl).1, (lowc_clean hycl).2.1, (lowc_clean hycl).2.2⟩
    have hPrs : rstripSlash (lowStr (rstripSlash pa)) = lowStr (rstripSlash pa) := by
      rw [lowStr_rstrip, rstrip_idem]
    have hPl : lowStr (lowStr (rstripSlash pa)) = lowStr (rstripSlash pa) :=
      lowStr_lowStr _
    have hkey : nl ≠ [] →
        (lowStr (rstripSlash pa) = [] ∨ (lowStr (rstripSlash pa)).headD ' ' = '/') := by
      intro hnlne
      rcases splitNetloc_spec (splitScheme U).2 with ⟨h1, -, -⟩ | ⟨t, -, -, h4⟩
      · rw [hnl] at h1
        exact absurd h1 hnlne
      · have hpa' : pa =
            ((t.dropWhile notDelim).takeWhile (neChar '#')).takeWhile (neChar '?') := by
          rw [← hpa, h4]
        rcases pa_shape_dd t with h0 | ⟨w, hw⟩
        · left
          rw [hpa', h0]
          rfl
        · exact P_shape_slash (by rw [hpa']; exact hw)
    have hPhd : lowStr sc = [] →
        (lowStr (rstripSlash pa) = [] ∨
          32 < ((lowStr (rstripSlash pa)).headD ' ').toNat) := by
      intro hS0
      rcases scheme_alt U with ⟨h1, h2⟩ | ⟨hok, -⟩
      · rcases splitNetloc_spec (splitScheme U).2 with ⟨-, h3, -⟩ | ⟨t, -, -, h4⟩
        · refine head_lift (L := U) ?_ (by rw [← hpa, h3, h2])
          rw [hU]
          exact preproc_head u.data
        · exact head_lift (dd_head_gt32 t) (by rw [← hpa, h4])
      · rw [hsc, lowStr_eq_nil_iff.mp hS0] at hok
        exact absurd rfl hok.1
    have hnoscore : lowStr sc = [] →
        splitScheme (lowStr (rstripSlash pa)) = ([], lowStr (rstripSlash pa)) := by
      intro hS0
      have hsc0 : sc = [] := lowStr_eq_nil_iff.mp hS0
      rcases scheme_alt U with ⟨h1, h2⟩ | ⟨hok, -⟩
      · rcases splitNetloc_spec (splitScheme U).2 with ⟨-, h3, -⟩ | ⟨t, -, -, h4⟩
        · have hschU : splitScheme U = ([], U) := by
            rw [Prod.ext_iff]
            exact ⟨h1, h2⟩
          exact noscheme_path hschU (by rw [← hpa, h3, h2]) rfl
        · have hpa' : pa =
              ((t.dropWhile notDelim).takeWhile (neChar '#')).takeWhile (neChar '?') := by
            rw [← hpa, h4]
          rcases pa_shape_dd t with h0 | ⟨w, hw⟩
          · rw [hpa', h0]
            rfl
          · rcases @P_shape_slash pa w (by rw [hpa']; exact hw) with h0 | hhd
            · rw [h0]
              rfl
            · apply splitScheme_not_alpha
              rcases hPc : lowStr (rstripSlash pa) with _ | ⟨a, tl⟩
              · rw [hPc] at hhd
                exact absurd hhd (by decide)
              · rw [hPc, List.headD_cons] at hhd
                subst hhd
                rw [List.headD_cons]
                decide
      · rw [hsc, hsc0] at hok
        exact absurd rfl hok.1
    have hHnl : lowStr (hostSplit nl).1 ≠ [] → nl ≠ [] := by
      intro hh h0
      apply hh
      rw [h0]
      decide
    have hP2H : lowStr (hostSplit nl).1 = [] →
        (lowStr (rstripSlash pa)).take 2 ≠ ['/', '/'] := by
      intro h0 hc
      rcases hshape with h | h
      · exact h (lowStr_eq_nil_iff.mp h0)
      · exact h (lowStr_take2.mp hc)
    have hmain_noport : normalizeList (unsplitModel (lowStr sc)
        (lowStr (hostSplit nl).1) (lowStr (rstripSlash pa))) =
        some (unsplitModel (lowStr sc) (lowStr (hostSplit nl).1)
          (lowStr (rstripSlash pa))) := by
      refine normalize_canon _ _ _ hSalt hHfull hPfull hPrs hPl
        (fun hne => hkey (hHnl hne)) hPhd hP2H (fun hS0 _ _ => hnoscore hS0) ?_
      intro P₂ h1 h2 h3
      exact normSplit_canon_noport (lowStr_lowStr sc) hHprop (lowStr_lowStr _) h1 h2 h3
    rcases hpo : portOf (hostSplit nl).2 with _ | po
    · simp only [normSplit, hpo] at hns
      exact Option.noConfusion hns
    · rcases po with _ | x
      · simp only [normSplit, hpo] at hns
        rw [splitParams_no hsemi] at hns
        rw [if_neg (by rintro (⟨-, hk⟩ | ⟨-, hk⟩) <;> exact Option.noConfusion hk)] at hns
        have hl2 := Option.some.inj hns
        rw [← hl2, hmain_noport]
        rfl
      · simp only [normSplit, hpo] at hns
        rw [splitParams_no hsemi] at hns
        by_cases hdef : (lowStr sc = "http".data ∧ (some x : Option Nat) = some 80) ∨
            (lowStr sc = "https".data ∧ (some x : Option Nat) = some 443)
        · rw [if_pos hdef] at hns
          have hl2 := Option.some.inj hns
          rw [← hl2, hmain_noport]
          rfl
        · rw [if_neg hdef] at hns
          by_cases hx0 : x ≠ 0
          · rw [if_pos hx0] at hns
            have hnlne2 : nl ≠ [] := by
              intro h0
              apply (portOf_inv hpo).2
              rw [h0]
              decide
            have hdef' : ¬((lowStr sc = "http".data ∧ x = 80) ∨
                (lowStr sc = "https".data ∧ x = 443)) := by
              intro h
              apply hdef
              rcases h with ⟨ha, hb⟩ | ⟨ha, hb⟩
              · exact Or.inl ⟨ha, by rw [hb]⟩
              · exact Or.inr ⟨ha, by rw [hb]⟩
            have hNport : ∀ c ∈ lowStr (hostSplit nl).1 ++ ':' :: digitsOfNat x,
                notDelim c = true ∧ c ≠ '[' ∧ c ≠ ']' ∧
                  c ≠ '\t' ∧ c ≠ '\r' ∧ c ≠ '\n' := by
              intro c hc
              rcases List.mem_append.mp hc with h | h
              · exact hHfull c h
              · rcases List.mem_cons.mp h with rfl | h
                · decide
                · have hd := asciiDigit_toNat (digitsOfNat_digits c h)
                  exact ⟨notDelim_iff.mpr
                      ⟨ne_of_toNat_ne (by rw [show ('/' : Char).toNat = 47 from rfl]; omega),
                      ne_of_toNat_ne (by rw [show ('?' : Char).toNat = 63 from rfl]; omega),
                      ne_of_toNat_ne (by rw [show ('#' : Char).toNat = 35 from rfl]; omega)⟩,
                    ne_of_toNat_ne (by rw [show ('[' : Char).toNat = 91 from rfl]; omega),
                    ne_of_toNat_ne (by rw [show (']' : Char).toNat = 93 from rfl]; omega),
                    ne_of_toNat_ne (by rw [show ('\t' : Char).toNat = 9 from rfl]; omega),
                    ne_of_toNat_ne (by rw [show ('\r' : Char).toNat = 13 from rfl]; omega),
                    ne_of_toNat_ne (by rw [show ('\n' : Char).toNat = 10 from rfl]; omega)⟩
            have hmain_port : normalizeList (unsplitModel (lowStr sc)
                (lowStr (hostSplit nl).1 ++ ':' :: digitsOfNat x)
                (lowStr (rstripSlash pa))) =
                some (unsplitModel (lowStr sc)
                  (lowStr (hostSplit nl).1 ++ ':' :: digitsOfNat x)
                  (lowStr (rstripSlash pa))) := by
              refine normalize_canon _ _ _ hSalt hNport hPfull hPrs hPl
                (fun _ => hkey hnlne2) hPhd ?_ (fun hS0 _ _ => hnoscore hS0) ?_
              · intro h0
                exact absurd (List.append_eq_nil.mp h0).2 (List.cons_ne_nil _ _)
              · intro P₂ h1 h2 h3
                exact normSplit_canon_port (lowStr_lowStr sc) hHprop (lowStr_lowStr _)
                  hx0 (portOf_inv hpo).1 hdef' h1 h2 h3
            have hl2 := Option.some.inj hns
            rw [← hl2, hmain_port]
            rfl
          · rw [if_neg hx0] at hns
            have hl2 := Option.some.inj hns
            rw [← hl2, hmain_noport]
            rfl

/-- Witness for C8: a URL satisfying all side conditions whose normalized key
normalizes to itself. -/
theorem claim_C8_witness :
    normalize_url "http://Example.com/A/" = some "http://example.com/a" ∧
    normalize_url "http://example.com/a" = some "http://example.com/a" := by
  constructor
  · decide
  · exact claim_C8 "http://Example.com/A/" "http://example.com/a"
      ⟨"http".data, "Example.com".data, "/A/".data, [], []⟩
      (by decide) (by decide) (by decide) (by decide) (by decide) (by decide)
